import Mathlib

/-!
Verification of the cchistory backend (shallow embedding).

Python strings that are compared, searched, or transformed are embedded as
`List Char` (a Python `str` compares lexicographically by code point, which is
exactly the `List Char` lexicographic order).  Machine reals that only flow
through comparisons and rounding (`st_mtime`, percentages) are embedded as
rationals.  Each definition is translated from the named source function.
-/

/-! ### Python string primitives

`needle in hay` (substring test) and single-character `str.replace` used by the
sources, on the `List Char` representation. -/

/-- Python `str.lower` restricted to the code points the corpus uses
(ASCII case folding, as `Char.toLower`). -/
def pyLower (s : List Char) : List Char := s.map Char.toLower

/-- Python list/str prefix test. -/
def isPrefixB : List Char → List Char → Bool
  | [], _ => true
  | _ :: _, [] => false
  | a :: as, b :: bs => a == b && isPrefixB as bs

/-- Python `needle in hay` substring containment. -/
def containsSub (hay needle : List Char) : Bool :=
  match hay with
  | [] => needle.isEmpty
  | _ :: t => isPrefixB needle hay || containsSub t needle

/-- Python `s.replace(a, b)` for one-character `a`, `b`: replacement is
character-by-character. -/
def pyReplaceChar (s : List Char) (a b : Char) : List Char :=
  s.map fun c => if c = a then b else c

/-! ## C9 — path-to-project-id transform

`Config.get_allowed_projects` / `convert_project_path_to_internal_format`
(src/backend/config.py lines 127-158, src/backend/api/notifications.py
lines 31-48): `os.path.normpath`, strip one leading '/', replace each of
'/', '.', '_' by '-', prepend '-'. -/

/-- One component handling step of `posixpath.normpath`'s loop over
`path.split('/')`. -/
def normpathStep (initialSlashes : Nat) (acc : List (List Char)) (comp : List Char) :
    List (List Char) :=
  if comp = [] ∨ comp = ['.'] then acc
  else if comp ≠ ['.', '.'] ∨ (initialSlashes = 0 ∧ acc = []) ∨
      (acc ≠ [] ∧ acc.getLast? = some ['.', '.']) then acc ++ [comp]
  else if acc ≠ [] then acc.dropLast
  else acc

/-- Python `path.split(sep)` for a one-character separator (keeps empty
components, exactly like Python). -/
def splitOnChar (sep : Char) : List Char → List (List Char)
  | [] => [[]]
  | c :: rest =>
    let r := splitOnChar sep rest
    if c = sep then [] :: r
    else
      match r with
      | [] => [[c]]
      | h :: t => (c :: h) :: t

/-- `posixpath.normpath` (what `os.path.normpath` is on the Linux host the
backend runs on). -/
def pyNormpath (path : List Char) : List Char :=
  if path = [] then ['.']
  else
    let initialSlashes : Nat :=
      if isPrefixB ['/', '/'] path ∧ ¬ isPrefixB ['/', '/', '/'] path then 2
      else if isPrefixB ['/'] path then 1 else 0
    let comps := splitOnChar '/' path
    let newComps := comps.foldl (normpathStep initialSlashes) []
    let joined := List.intercalate ['/'] newComps
    let joined := List.replicate initialSlashes '/' ++ joined
    if joined = [] then ['.'] else joined

/-- `convert_project_path_to_internal_format` /
the per-path body of `Config.get_allowed_projects`: normalize, strip one
leading '/', replace `/`, `.`, `_` by `-`, prepend `-`. -/
def convertProjectPathToInternalFormat (projectPath : List Char) : List Char :=
  let normalizedPath := pyNormpath projectPath
  let normalizedPath :=
    if isPrefixB ['/'] normalizedPath then normalizedPath.drop 1 else normalizedPath
  '-' :: pyReplaceChar (pyReplaceChar (pyReplaceChar normalizedPath '/' '-') '.' '-') '_' '-'

/-- The character map applied by the chained replaces. -/
def hyphenize (c : Char) : Char := if c = '/' ∨ c = '.' ∨ c = '_' then '-' else c

theorem replace_chain_eq_map (s : List Char) :
    pyReplaceChar (pyReplaceChar (pyReplaceChar s '/' '-') '.' '-') '_' '-' =
      s.map hyphenize := by
  simp only [pyReplaceChar, List.map_map]
  refine List.map_congr_left fun c _ => ?_
  by_cases h1 : c = '/'
  · subst h1; decide
  by_cases h2 : c = '.'
  · subst h2; decide
  by_cases h3 : c = '_'
  · subst h3; decide
  simp [Function.comp, h1, h2, h3, hyphenize]

theorem hyphenize_ne_slash (c : Char) : hyphenize c ≠ '/' := by
  unfold hyphenize
  split
  · decide
  · rename_i h
    push_neg at h
    exact h.1

theorem hyphenize_idem (c : Char) : hyphenize (hyphenize c) = hyphenize c := by
  unfold hyphenize
  split <;> rename_i h
  · simp
  · push_neg at h
    simp [h.1, h.2.1, h.2.2]

theorem splitOnChar_of_not_mem {sep : Char} {l : List Char} (h : sep ∉ l) :
    splitOnChar sep l = [l] := by
  induction l with
  | nil => rfl
  | cons c rest ih =>
    simp only [List.mem_cons, not_or] at h
    simp [splitOnChar, ih h.2, if_neg (Ne.symm h.1)]

/-- `posixpath.normpath` is the identity on a nonempty relative path with no
separators that is not one of the special components `.` and `..`. -/
theorem pyNormpath_fixed {s : List Char} (hne : s ≠ []) (hsep : '/' ∉ s)
    (hdot : s ≠ ['.']) (hddot : s ≠ ['.', '.']) : pyNormpath s = s := by
  have hpre1 : isPrefixB ['/'] s = false := by
    cases s with
    | nil => simp at hne
    | cons c t =>
      simp only [List.mem_cons, not_or] at hsep
      simp only [isPrefixB, Bool.and_eq_false_iff, beq_eq_false_iff_ne, ne_eq]
      exact Or.inl hsep.1
  have hpre2 : isPrefixB ['/', '/'] s = false := by
    cases s with
    | nil => simp at hne
    | cons c t =>
      simp only [List.mem_cons, not_or] at hsep
      simp only [isPrefixB, Bool.and_eq_false_iff, beq_eq_false_iff_ne, ne_eq]
      exact Or.inl hsep.1
  unfold pyNormpath
  rw [if_neg hne]
  simp only [hpre1, hpre2, Bool.false_eq_true, false_and, ite_false, reduceIte]
  rw [splitOnChar_of_not_mem hsep]
  simp only [List.foldl_cons, List.foldl_nil]
  rw [show normpathStep 0 [] s = [s] by
    unfold normpathStep
    rw [if_neg (by simp [hne, hdot]), if_pos (Or.inl hddot)]
    simp]
  simp [List.intercalate, List.intersperse, hne]

/-- `strip one leading slash`, the intermediate value of the transform. -/
def stripLeadingSlash (l : List Char) : List Char :=
  if isPrefixB ['/'] l then l.drop 1 else l

theorem convert_eq (p : List Char) :
    convertProjectPathToInternalFormat p =
      '-' :: (stripLeadingSlash (pyNormpath p)).map hyphenize := by
  simp only [convertProjectPathToInternalFormat, stripLeadingSlash]
  rw [replace_chain_eq_map]

/-- C9 counterexample input: the transform of `/a` is `-a`, transforming again
gives `--a`, so the transform is *not* idempotent. -/
theorem c9_counterexample :
    convertProjectPathToInternalFormat
        (convertProjectPathToInternalFormat "/a".data) ≠
      convertProjectPathToInternalFormat "/a".data ∧
    convertProjectPathToInternalFormat "/a".data = "-a".data ∧
    convertProjectPathToInternalFormat "-a".data = "--a".data := by
  refine ⟨?_, by decide, by decide⟩
  decide

/-- C9 (corrected): the path-to-project-id transform is total on strings (it is
a Lean function), but it is not idempotent: applying it twice always prepends
one more `-`, i.e. `transform (transform p) = '-' :: transform p` for every
path `p`. -/
theorem c9_transform_total_double_prepends (p : List Char) :
    convertProjectPathToInternalFormat (convertProjectPathToInternalFormat p) =
      '-' :: convertProjectPathToInternalFormat p := by
  rw [convert_eq p]
  set s := stripLeadingSlash (pyNormpath p) with hsdef
  have hne : ('-' :: s.map hyphenize) ≠ [] := by simp
  have hsep : '/' ∉ ('-' :: s.map hyphenize) := by
    simp only [List.mem_cons, not_or]
    refine ⟨by decide, ?_⟩
    simp only [List.mem_map, not_exists, not_and]
    intro c _
    exact fun h => hyphenize_ne_slash c h
  have hdot : ('-' :: s.map hyphenize) ≠ ['.'] := by
    intro h; injection h with h1 _; exact absurd h1 (by decide)
  have hddot : ('-' :: s.map hyphenize) ≠ ['.', '.'] := by
    intro h; injection h with h1 _; exact absurd h1 (by decide)
  rw [convert_eq ('-' :: s.map hyphenize)]
  rw [pyNormpath_fixed hne hsep hdot hddot]
  have hpre : isPrefixB ['/'] ('-' :: s.map hyphenize) = false := by
    simp only [isPrefixB, Bool.and_eq_false_iff, beq_eq_false_iff_ne, ne_eq]
    exact Or.inl (by decide)
  rw [show stripLeadingSlash ('-' :: s.map hyphenize) = '-' :: s.map hyphenize by
    simp [stripLeadingSlash, hpre]]
  rw [List.map_cons, show hyphenize '-' = '-' from by decide, List.map_map,
    show hyphenize ∘ hyphenize = hyphenize from funext hyphenize_idem]

/-! ## C10 — percentage computation

`UsageCalculator._calculate_percentage` (src/backend/services/usage_calculator.py
lines 854-859).  Reals are embedded as rationals; Python `round(x, 1)` rounds to
the nearest tenth with ties to even. -/

/-- Python `round` to an integer: nearest, ties to even. -/
def roundHalfEven (x : ℚ) : ℤ :=
  let f := ⌊x⌋
  let r := x - f
  if r < 1/2 then f
  else if 1/2 < r then f + 1
  else if f % 2 = 0 then f else f + 1

/-- Python `round(x, 1)`. -/
def pyRound1 (x : ℚ) : ℚ := (roundHalfEven (x * 10) : ℚ) / 10

/-- `UsageCalculator._calculate_percentage`. -/
def calculatePercentage (used limit : ℤ) : ℚ :=
  if limit ≤ 0 then 0
  else min (pyRound1 ((used : ℚ) / (limit : ℚ) * 100)) 100

theorem roundHalfEven_nonneg {x : ℚ} (hx : 0 ≤ x) : 0 ≤ roundHalfEven x := by
  have hf : (0 : ℤ) ≤ ⌊x⌋ := Int.floor_nonneg.mpr hx
  simp only [roundHalfEven]
  split
  · exact hf
  split
  · omega
  split
  · exact hf
  · omega

theorem pyRound1_nonneg {x : ℚ} (hx : 0 ≤ x) : 0 ≤ pyRound1 x := by
  unfold pyRound1
  have h10 : (0 : ℚ) ≤ x * 10 := by positivity
  have := roundHalfEven_nonneg h10
  have h : (0 : ℚ) ≤ (roundHalfEven (x * 10) : ℚ) := by exact_mod_cast this
  positivity

/-- C10 counterexample: at `used = -100`, `limit = 100` the function returns
`-100`, which is not in `[0, 100]`, refuting the claim's "for all integer
inputs ... every percentage reported through this function is in [0, 100]". -/
theorem c10_counterexample :
    calculatePercentage (-100) 100 < 0 := by
  have h1 : ¬ ((100 : ℤ) ≤ 0) := by norm_num
  have harg : ((-100 : ℤ) : ℚ) / ((100 : ℤ) : ℚ) * 100 = -100 := by norm_num
  have hfl : (⌊(-1000 : ℚ)⌋ : ℤ) = -1000 := by norm_num
  have hr : roundHalfEven (-1000) = -1000 := by
    unfold roundHalfEven
    rw [hfl]
    norm_num
  unfold calculatePercentage
  rw [if_neg h1, harg]
  unfold pyRound1
  norm_num [hr]

/-- C10 (corrected): the computation is total; when `limit ≤ 0` it returns `0`
without dividing; the result never exceeds `100`; and for nonnegative `used`
(as produced by nonnegative token counters) the result is also nonnegative,
hence in `[0, 100]`.  For negative `used` the result can be negative, so the
claim's unconditional lower bound is amended to require `0 ≤ used`. -/
theorem c10_percentage_total_bounded (used limit : ℤ) :
    (limit ≤ 0 → calculatePercentage used limit = 0) ∧
    calculatePercentage used limit ≤ 100 ∧
    (0 ≤ used → 0 ≤ calculatePercentage used limit) := by
  refine ⟨fun h => by simp [calculatePercentage, h], ?_, ?_⟩
  · unfold calculatePercentage
    split
    · norm_num
    · exact min_le_right _ _
  · intro hu
    unfold calculatePercentage
    split
    · norm_num
    · rename_i hl
      push_neg at hl
      have hq : (0 : ℚ) ≤ (used : ℚ) / (limit : ℚ) * 100 := by
        have h1 : (0 : ℚ) ≤ (used : ℚ) := by exact_mod_cast hu
        have h2 : (0 : ℚ) < (limit : ℚ) := by exact_mod_cast hl
        positivity
      exact le_min (pyRound1_nonneg hq) (by norm_num)

/-- Witness for C10's corrected theorem at `used = 50`, `limit = 100`. -/
theorem c10_percentage_witness :
    calculatePercentage 50 100 ≤ 100 ∧ 0 ≤ calculatePercentage 50 100 :=
  ⟨(c10_percentage_total_bounded 50 100).2.1,
   (c10_percentage_total_bounded 50 100).2.2 (by norm_num)⟩

/-! ## C4 — usage totals

`UsageCalculator._calculate_block_usage` (src/backend/services/usage_calculator.py
lines 545-590) and the model predicates `_is_opus_model` / `_is_sonnet_model`
(lines 234-258).  A usage entry is the record built by `_parse_project_files`:
timestamp (seconds UTC), model string, and the four token counters of
`message.usage`. -/

/-- A usage sample extracted by `_parse_project_files`.  The `timestamp` is the
parsed instant in seconds UTC. -/
structure UsageEntry where
  timestamp : Nat
  model : List Char
  input_tokens : Int
  output_tokens : Int
  cache_creation_input_tokens : Int
  cache_read_input_tokens : Int
deriving DecidableEq

/-- `UsageCalculator._is_opus_model`: `'opus' in model.lower()`. -/
def isOpusModel (e : UsageEntry) : Bool := containsSub (pyLower e.model) "opus".data

/-- `UsageCalculator._is_sonnet_model`: `'sonnet' in model.lower()`. -/
def isSonnetModel (e : UsageEntry) : Bool := containsSub (pyLower e.model) "sonnet".data

/-- The accumulator dict of `_calculate_block_usage`. -/
structure BlockUsage where
  input_tokens : Int
  output_tokens : Int
  cache_creation_tokens : Int
  cache_read_tokens : Int
  total_tokens : Int
  entry_count : Nat
deriving DecidableEq

/-- Loop body of `_calculate_block_usage`. -/
def blockUsageStep (opusOnly : Bool) (u : BlockUsage) (e : UsageEntry) : BlockUsage :=
  if opusOnly ∧ ¬ isOpusModel e then u
  else
    { u with
      input_tokens := u.input_tokens + e.input_tokens
      output_tokens := u.output_tokens + e.output_tokens
      cache_creation_tokens := u.cache_creation_tokens + e.cache_creation_input_tokens
      cache_read_tokens := u.cache_read_tokens + e.cache_read_input_tokens
      entry_count := u.entry_count + 1 }

/-- `UsageCalculator._calculate_block_usage`: sum the counters over the (Opus
filtered, when requested) entries; then `total_tokens` is set to
`input_tokens + output_tokens` only. -/
def calculateBlockUsage (blockEntries : List UsageEntry) (opusOnly : Bool) : BlockUsage :=
  let u := blockEntries.foldl (blockUsageStep opusOnly) ⟨0, 0, 0, 0, 0, 0⟩
  { u with total_tokens := u.input_tokens + u.output_tokens }

/-- The entries counted by `_calculate_block_usage`. -/
def countedEntries (blockEntries : List UsageEntry) (opusOnly : Bool) : List UsageEntry :=
  blockEntries.filter fun e => !(opusOnly && !isOpusModel e)

theorem blockUsage_foldl_spec (opusOnly : Bool) (l : List UsageEntry) (u : BlockUsage) :
    l.foldl (blockUsageStep opusOnly) u =
      { u with
        input_tokens :=
          u.input_tokens + ((countedEntries l opusOnly).map (·.input_tokens)).sum
        output_tokens :=
          u.output_tokens + ((countedEntries l opusOnly).map (·.output_tokens)).sum
        cache_creation_tokens :=
          u.cache_creation_tokens +
            ((countedEntries l opusOnly).map (·.cache_creation_input_tokens)).sum
        cache_read_tokens :=
          u.cache_read_tokens +
            ((countedEntries l opusOnly).map (·.cache_read_input_tokens)).sum
        entry_count := u.entry_count + (countedEntries l opusOnly).length } := by
  induction l generalizing u with
  | nil => simp [countedEntries]
  | cons e rest ih =>
    simp only [List.foldl_cons]
    by_cases hskip : opusOnly = true ∧ isOpusModel e = false
    · have hstep : blockUsageStep opusOnly u e = u := by
        simp [blockUsageStep, hskip.1, hskip.2]
      have hfilter : countedEntries (e :: rest) opusOnly = countedEntries rest opusOnly := by
        simp [countedEntries, List.filter_cons, hskip.1, hskip.2]
      rw [hstep, hfilter]
      exact ih u
    · have hcond : ¬ (opusOnly = true ∧ ¬ isOpusModel e = true) := by
        intro hc
        exact hskip ⟨hc.1, by revert hc; cases isOpusModel e <;> simp⟩
      have hstep : blockUsageStep opusOnly u e =
          { u with
            input_tokens := u.input_tokens + e.input_tokens
            output_tokens := u.output_tokens + e.output_tokens
            cache_creation_tokens :=
              u.cache_creation_tokens + e.cache_creation_input_tokens
            cache_read_tokens := u.cache_read_tokens + e.cache_read_input_tokens
            entry_count := u.entry_count + 1 } := by
        simp only [blockUsageStep]
        rw [if_neg hcond]
      have hfilter : countedEntries (e :: rest) opusOnly =
          e :: countedEntries rest opusOnly := by
        simp only [countedEntries, List.filter_cons]
        rw [if_pos]
        cases hOp : opusOnly <;> cases hIs : isOpusModel e <;> simp_all
      rw [hstep, hfilter, ih]
      simp only [List.map_cons, List.sum_cons, List.length_cons, BlockUsage.mk.injEq]
      refine ⟨by omega, by omega, by omega, by omega, trivial, by omega⟩

/-- C4 (confirmed): for every list of usage entries and either filter mode (the
session, weekly-all and weekly-per-model horizons all sum through this one
function), the reported `total_tokens` equals the sum of
`input_tokens + output_tokens` over the counted entries, while the cache
creation/read sums are reported in their own fields and contribute nothing to
`total_tokens`. -/
theorem c4_total_tokens_excludes_cache (blockEntries : List UsageEntry) (opusOnly : Bool) :
    (calculateBlockUsage blockEntries opusOnly).total_tokens =
      ((countedEntries blockEntries opusOnly).map
        (fun e => e.input_tokens + e.output_tokens)).sum ∧
    (calculateBlockUsage blockEntries opusOnly).total_tokens =
      (calculateBlockUsage blockEntries opusOnly).input_tokens +
        (calculateBlockUsage blockEntries opusOnly).output_tokens ∧
    (calculateBlockUsage blockEntries opusOnly).cache_creation_tokens =
      ((countedEntries blockEntries opusOnly).map
        (·.cache_creation_input_tokens)).sum ∧
    (calculateBlockUsage blockEntries opusOnly).cache_read_tokens =
      ((countedEntries blockEntries opusOnly).map (·.cache_read_input_tokens)).sum := by
  have h := blockUsage_foldl_spec opusOnly blockEntries ⟨0, 0, 0, 0, 0, 0⟩
  refine ⟨?_, ?_, ?_, ?_⟩ <;>
    simp [calculateBlockUsage, h, List.sum_map_add]

/-! ## C3 — fixed 5-hour session blocks

`UsageCalculator._get_session_entries_from_first_message`
(src/backend/services/usage_calculator.py lines 320-425).  Instants are seconds
UTC; `now_utc.replace(hour=h, minute=0, second=0, microsecond=0)` is
`now - now % 86400 + 3600 * h`. -/

/-- `block_starts_utc = [0, 4, 9, 14, 19]`. -/
def blockStartsUTC : List Nat := [0, 4, 9, 14, 19]

/-- The `(start_hour, end_hour)` pairs scanned by the loop:
`end_hour = block_starts_utc[(i + 1) % len(block_starts_utc)]`. -/
def blockPairs : List (Nat × Nat) :=
  List.zip blockStartsUTC (blockStartsUTC.drop 1 ++ blockStartsUTC.take 1)

/-- The loop of `_get_session_entries_from_first_message` that finds the block
containing the current UTC hour (normal ranges, and the wrap-around test
`current >= start or current < end` for the 19:00 block). -/
def findCurrentBlock (h : Nat) : Option (Nat × Nat) :=
  blockPairs.find? fun se =>
    if se.1 < se.2 then decide (se.1 ≤ h ∧ h < se.2)
    else decide (h ≥ se.1 ∨ h < se.2)

/-- The `[session_start_utc, session_end_utc)` window computed by
`_get_session_entries_from_first_message` for instant `now` (seconds UTC),
including the end-hour wrap to the next day and the
`if now_utc < session_start_utc` day-shift guard. -/
def sessionWindowUTC (now : Nat) : Option (Nat × Nat) :=
  match findCurrentBlock (now % 86400 / 3600) with
  | none => none
  | some (bs, be) =>
    let dayStart := now - now % 86400
    let sessionStart := dayStart + 3600 * bs
    let sessionEnd :=
      if be > bs then dayStart + 3600 * be else dayStart + 86400 + 3600 * be
    if now < sessionStart then some (sessionStart - 86400, sessionEnd - 86400)
    else some (sessionStart, sessionEnd)

/-- `_get_session_entries_from_first_message`: the returned
`(session_entries, session_start, session_end)` triple. -/
def getSessionEntriesFromFirstMessage (entries : List UsageEntry) (now : Nat) :
    List UsageEntry × Option Nat × Option Nat :=
  match sessionWindowUTC now with
  | none => ([], none, none)
  | some (s, e) =>
    (entries.filter fun en => decide (s ≤ en.timestamp ∧ en.timestamp < e),
      some s, some e)

/-- An instant that lies exactly on a UTC boundary hour of the block grid. -/
def isBoundaryTime (t : Nat) : Prop := t % 3600 = 0 ∧ t / 3600 % 24 ∈ blockStartsUTC

theorem blockPairs_eq : blockPairs = [(0, 4), (4, 9), (9, 14), (14, 19), (19, 0)] := rfl

theorem boundary_char (b : Nat) :
    isBoundaryTime b ↔ b % 3600 = 0 ∧
      (b / 3600 % 24 = 0 ∨ b / 3600 % 24 = 4 ∨ b / 3600 % 24 = 9 ∨
        b / 3600 % 24 = 14 ∨ b / 3600 % 24 = 19) := by
  simp [isBoundaryTime, blockStartsUTC]

theorem sessionWindow_no_shift (now bs be : Nat)
    (hfind : findCurrentBlock (now % 86400 / 3600) = some (bs, be))
    (hbs : 3600 * bs ≤ now % 86400) :
    sessionWindowUTC now =
      some (now - now % 86400 + 3600 * bs,
        if be > bs then now - now % 86400 + 3600 * be
        else now - now % 86400 + 86400 + 3600 * be) := by
  unfold sessionWindowUTC
  rw [hfind]
  simp only []
  rw [if_neg (by omega)]

/-- The window exists for every `now` and has the boundary properties: the
start is the most recent boundary at or before `now`, the end is the next
boundary after the start, and `now` lies in `[start, end)`. -/
theorem sessionWindow_spec (now : Nat) :
    ∃ s e, sessionWindowUTC now = some (s, e) ∧
      isBoundaryTime s ∧ s ≤ now ∧ now < e ∧
      (∀ b, isBoundaryTime b → b ≤ now → b ≤ s) ∧
      isBoundaryTime e ∧
      (∀ b, isBoundaryTime b → s < b → e ≤ b) := by
  have hk : now % 86400 < 86400 := Nat.mod_lt _ (by norm_num)
  by_cases h1 : now % 86400 / 3600 < 4
  · have hfind : findCurrentBlock (now % 86400 / 3600) = some (0, 4) := by
      unfold findCurrentBlock
      rw [blockPairs_eq]
      rw [List.find?_cons_of_pos]
      simp only [if_pos (by norm_num : (0 : Nat) < 4), decide_eq_true_eq]
      exact ⟨Nat.zero_le _, h1⟩
    have hw := sessionWindow_no_shift now 0 4 hfind (by omega)
    rw [if_pos (by norm_num : (4 : Nat) > 0)] at hw
    refine ⟨_, _, hw, ?_, by omega, by omega, ?_, ?_, ?_⟩
    · rw [boundary_char]; omega
    · intro b hb hble; rw [boundary_char] at hb; omega
    · rw [boundary_char]; omega
    · intro b hb hgt; rw [boundary_char] at hb; omega
  by_cases h2 : now % 86400 / 3600 < 9
  · have hfind : findCurrentBlock (now % 86400 / 3600) = some (4, 9) := by
      unfold findCurrentBlock
      rw [blockPairs_eq]
      rw [List.find?_cons_of_neg, List.find?_cons_of_pos]
      · simp only [if_pos (by norm_num : (4 : Nat) < 9), decide_eq_true_eq]
        omega
      · simp only [if_pos (by norm_num : (0 : Nat) < 4), decide_eq_true_eq]
        omega
    have hw := sessionWindow_no_shift now 4 9 hfind (by omega)
    rw [if_pos (by norm_num : (9 : Nat) > 4)] at hw
    refine ⟨_, _, hw, ?_, by omega, by omega, ?_, ?_, ?_⟩
    · rw [boundary_char]; omega
    · intro b hb hble; rw [boundary_char] at hb; omega
    · rw [boundary_char]; omega
    · intro b hb hgt; rw [boundary_char] at hb; omega
  by_cases h3 : now % 86400 / 3600 < 14
  · have hfind : findCurrentBlock (now % 86400 / 3600) = some (9, 14) := by
      unfold findCurrentBlock
      rw [blockPairs_eq]
      rw [List.find?_cons_of_neg, List.find?_cons_of_neg, List.find?_cons_of_pos]
      · simp only [if_pos (by norm_num : (9 : Nat) < 14), decide_eq_true_eq]
        omega
      · simp only [if_pos (by norm_num : (4 : Nat) < 9), decide_eq_true_eq]
        omega
      · simp only [if_pos (by norm_num : (0 : Nat) < 4), decide_eq_true_eq]
        omega
    have hw := sessionWindow_no_shift now 9 14 hfind (by omega)
    rw [if_pos (by norm_num : (14 : Nat) > 9)] at hw
    refine ⟨_, _, hw, ?_, by omega, by omega, ?_, ?_, ?_⟩
    · rw [boundary_char]; omega
    · intro b hb hble; rw [boundary_char] at hb; omega
    · rw [boundary_char]; omega
    · intro b hb hgt; rw [boundary_char] at hb; omega
  by_cases h4 : now % 86400 / 3600 < 19
  · have hfind : findCurrentBlock (now % 86400 / 3600) = some (14, 19) := by
      unfold findCurrentBlock
      rw [blockPairs_eq]
      rw [List.find?_cons_of_neg, List.find?_cons_of_neg, List.find?_cons_of_neg,
        List.find?_cons_of_pos]
      · simp only [if_pos (by norm_num : (14 : Nat) < 19), decide_eq_true_eq]
        omega
      · simp only [if_pos (by norm_num : (9 : Nat) < 14), decide_eq_true_eq]
        omega
      · simp only [if_pos (by norm_num : (4 : Nat) < 9), decide_eq_true_eq]
        omega
      · simp only [if_pos (by norm_num : (0 : Nat) < 4), decide_eq_true_eq]
        omega
    have hw := sessionWindow_no_shift now 14 19 hfind (by omega)
    rw [if_pos (by norm_num : (19 : Nat) > 14)] at hw
    refine ⟨_, _, hw, ?_, by omega, by omega, ?_, ?_, ?_⟩
    · rw [boundary_char]; omega
    · intro b hb hble; rw [boundary_char] at hb; omega
    · rw [boundary_char]; omega
    · intro b hb hgt; rw [boundary_char] at hb; omega
  · have hfind : findCurrentBlock (now % 86400 / 3600) = some (19, 0) := by
      unfold findCurrentBlock
      rw [blockPairs_eq]
      rw [List.find?_cons_of_neg, List.find?_cons_of_neg, List.find?_cons_of_neg,
        List.find?_cons_of_neg, List.find?_cons_of_pos]
      · simp only [if_neg (by norm_num : ¬ (19 : Nat) < 0), decide_eq_true_eq]
        omega
      · simp only [if_pos (by norm_num : (14 : Nat) < 19), decide_eq_true_eq]
        omega
      · simp only [if_pos (by norm_num : (9 : Nat) < 14), decide_eq_true_eq]
        omega
      · simp only [if_pos (by norm_num : (4 : Nat) < 9), decide_eq_true_eq]
        omega
      · simp only [if_pos (by norm_num : (0 : Nat) < 4), decide_eq_true_eq]
        omega
    have hw := sessionWindow_no_shift now 19 0 hfind (by omega)
    rw [if_neg (by norm_num : ¬ (0 : Nat) > 19)] at hw
    refine ⟨_, _, hw, ?_, by omega, by omega, ?_, ?_, ?_⟩
    · rw [boundary_char]; omega
    · intro b hb hble; rw [boundary_char] at hb; omega
    · rw [boundary_char]; omega
    · intro b hb hgt; rw [boundary_char] at hb; omega

/-- The usage sample of the spec's end-to-end scenario 6 that lies at
19:05 UTC (`now` is 15:30 UTC of the same day). -/
def exSample1905 : UsageEntry := ⟨68700, "claude-opus-4".data, 1000, 1000, 0, 0⟩

/-- C3 (confirmed): for every instant `now` (seconds UTC) the current session
block starts at the most recent UTC boundary hour in `{0, 4, 9, 14, 19}` at or
before `now` and ends at the next boundary (the 19:00 block ends at next-day
00:00 UTC), and the session entries are exactly the usage samples with
timestamp in `[start, end)`.  In particular at `now` = 15:30 UTC the block is
`[14:00, 19:00)` and a sample at 19:05 UTC is excluded. -/
theorem c3_session_block_boundaries :
    (∀ now entries s e, sessionWindowUTC now = some (s, e) →
      isBoundaryTime s ∧ s ≤ now ∧ now < e ∧
      (∀ b, isBoundaryTime b → b ≤ now → b ≤ s) ∧
      isBoundaryTime e ∧
      (∀ b, isBoundaryTime b → s < b → e ≤ b) ∧
      getSessionEntriesFromFirstMessage entries now =
        (entries.filter fun en => decide (s ≤ en.timestamp ∧ en.timestamp < e),
          some s, some e)) ∧
    (∀ now, ∃ s e, sessionWindowUTC now = some (s, e)) ∧
    sessionWindowUTC 55800 = some (50400, 68400) ∧
    getSessionEntriesFromFirstMessage [exSample1905] 55800 = ([], some 50400, some 68400) := by
  refine ⟨?_, ?_, by decide, by decide⟩
  · intro now entries s e hw
    obtain ⟨s', e', hw', hp⟩ := sessionWindow_spec now
    rw [hw] at hw'
    simp only [Option.some.injEq, Prod.mk.injEq] at hw'
    obtain ⟨rfl, rfl⟩ := hw'
    refine ⟨hp.1, hp.2.1, hp.2.2.1, hp.2.2.2.1, hp.2.2.2.2.1, hp.2.2.2.2.2, ?_⟩
    unfold getSessionEntriesFromFirstMessage
    rw [hw]
  · intro now
    obtain ⟨s, e, hw, _⟩ := sessionWindow_spec now
    exact ⟨s, e, hw⟩

/-- Witness for C3 at `now` = 15:30 UTC (55800 s) with the 19:05 UTC sample:
the theorem's hypotheses are discharged at the concrete window
`[50400, 68400)` = `[14:00, 19:00)`. -/
theorem c3_session_block_witness :
    isBoundaryTime 50400 ∧ 50400 ≤ 55800 ∧ 55800 < 68400 ∧
    getSessionEntriesFromFirstMessage [exSample1905] 55800 =
      ([exSample1905].filter fun en => decide (50400 ≤ en.timestamp ∧ en.timestamp < 68400),
        some 50400, some 68400) := by
  have h := c3_session_block_boundaries.1 55800 [exSample1905] 50400 68400 (by decide)
  exact ⟨h.1, h.2.1, h.2.2.1, h.2.2.2.2.2.2⟩

/-! ## C2 — file-cache validity in `JSONLParser`

`JSONLParser._is_cache_valid` (src/backend/services/jsonl_parser.py lines
17-47) and the cache branch of `JSONLParser.parse_file` (lines 161-171,
201-206).  `st_mtime` is a machine real, embedded as `ℚ`; `st_size` is an
integer.  A parsed message is represented by its line payload identifier
(`Nat`) — only identity matters for the cache claim. -/

/-- A `_cache_timestamps` entry: the dict form written by `parse_file`, or the
legacy float form handled by `_is_cache_valid`'s `else` branch. -/
inductive CacheStamp where
  | dict (mtime : ℚ) (size : Int)
  | legacy (mtime : ℚ)
deriving DecidableEq

/-- The mutable state of a `JSONLParser` (file-level cache only): `_cache` and
`_cache_timestamps`, keyed by the file path. -/
structure ParserState where
  cache : List (List Char × List Nat)
  cacheTimestamps : List (List Char × CacheStamp)
deriving DecidableEq

/-- Python `dict.get`-style association lookup. -/
def lookupA {β : Type} (l : List (List Char × β)) (k : List Char) : Option β :=
  (l.find? fun p => p.1 = k).map (·.2)

/-- `JSONLParser._is_cache_valid`: missing stamp is invalid; the dict form
compares `cached_mtime >= mtime and cached_size == size` when a size is given
(and only `cached_mtime >= mtime` when not); the legacy float form compares
`cached_data >= mtime`. -/
def isCacheValidJSONL (st : ParserState) (cacheKey : List Char) (mtime : ℚ)
    (size : Option Int) : Bool :=
  match lookupA st.cacheTimestamps cacheKey with
  | none => false
  | some (CacheStamp.dict cachedMtime cachedSize) =>
    match size with
    | some s => decide (cachedMtime ≥ mtime) && decide (cachedSize = s)
    | none => decide (cachedMtime ≥ mtime)
  | some (CacheStamp.legacy cachedMtime) => decide (cachedMtime ≥ mtime)

/-- Association update (Python dict assignment). -/
def updateA {β : Type} (l : List (List Char × β)) (k : List Char) (v : β) :
    List (List Char × β) :=
  if (l.find? fun p => p.1 = k).isSome then
    l.map fun p => if p.1 = k then (k, v) else p
  else l ++ [(k, v)]

/-- `JSONLParser.parse_file` at the cache decision point: `file_path` has been
stat'ed to `(mtime, size)`; `parsedLines` stands for the classified result of
actually reading the file.  Returns the message list and the new state: the
cached list is returned iff the key is in `_cache` and `_is_cache_valid`
passes; otherwise the file is re-parsed and both dicts are replaced. -/
def parseFile (st : ParserState) (filePath : List Char) (mtime : ℚ) (size : Int)
    (parsedLines : List Nat) : List Nat × ParserState :=
  if (lookupA st.cache filePath).isSome ∧
      isCacheValidJSONL st filePath mtime (some size) then
    ((lookupA st.cache filePath).getD [], st)
  else
    (parsedLines,
      { cache := updateA st.cache filePath parsedLines
        cacheTimestamps :=
          updateA st.cacheTimestamps filePath (CacheStamp.dict mtime size) })

/-- Whether `parse_file` serves the cached list (no re-parse). -/
def parseFileUsesCache (st : ParserState) (filePath : List Char) (mtime : ℚ)
    (size : Int) : Bool :=
  (lookupA st.cache filePath).isSome && isCacheValidJSONL st filePath mtime (some size)

/-- C2 counterexample state: a cached entry recorded at `mtime = 10`,
`size = 5`, holding message `0`. -/
def c2State : ParserState :=
  { cache := [("f".data, [0])]
    cacheTimestamps := [("f".data, CacheStamp.dict 10 5)] }

/-- C2 counterexample: the file's current stat is `(mtime = 9, size = 5)` —
*different* from the stored `(10, 5)` — yet `parse_file` still returns the
cached list (no re-parse, state unchanged), because the code tests
`cached_mtime >= mtime`, not equality.  This refutes the claim's "if and only
if ... identical" (the "current mtime smaller than the stored one" direction
fails). -/
theorem c2_counterexample :
    parseFileUsesCache c2State "f".data 9 5 = true ∧
    parseFile c2State "f".data 9 5 [1] = ([0], c2State) ∧
    ((9 : ℚ), (5 : Int)) ≠ ((10 : ℚ), (5 : Int)) := by
  refine ⟨by decide, by decide, by norm_num⟩

/-- C2 (corrected): `parse_file` returns the cached message list iff the key is
present in both cache dicts and the stored stamp validates against the current
stat — which for the dict form written by `parse_file` means
`cached_mtime ≥ mtime ∧ cached_size = size` (the legacy float form compares
only `cached_mtime ≥ mtime`).  Equality of the stat pairs is sufficient but
not necessary: a current mtime *smaller* than the stored one with equal size
still serves the cache. -/
theorem c2_cache_validity_geq_not_eq (st : ParserState) (filePath : List Char)
    (mtime : ℚ) (size : Int) :
    (parseFileUsesCache st filePath mtime size = true ↔
      (lookupA st.cache filePath).isSome ∧
      ((∃ cm cs, lookupA st.cacheTimestamps filePath = some (CacheStamp.dict cm cs) ∧
          mtime ≤ cm ∧ cs = size) ∨
        (∃ cm, lookupA st.cacheTimestamps filePath = some (CacheStamp.legacy cm) ∧
          mtime ≤ cm))) ∧
    (parseFileUsesCache st filePath mtime size = true →
      parseFile st filePath mtime size [] = ((lookupA st.cache filePath).getD [], st)) ∧
    (parseFileUsesCache st filePath mtime size = false →
      ∀ parsedLines, (parseFile st filePath mtime size parsedLines).1 = parsedLines) := by
  refine ⟨?_, ?_, ?_⟩
  · unfold parseFileUsesCache isCacheValidJSONL
    constructor
    · intro h
      simp only [Bool.and_eq_true] at h
      refine ⟨h.1, ?_⟩
      obtain ⟨h1, h2⟩ := h
      match hl : lookupA st.cacheTimestamps filePath with
      | none => rw [hl] at h2; simp at h2
      | some (CacheStamp.dict cm cs) =>
        rw [hl] at h2
        simp only [Bool.and_eq_true, decide_eq_true_eq, ge_iff_le] at h2
        exact Or.inl ⟨cm, cs, rfl, h2.1, h2.2⟩
      | some (CacheStamp.legacy cm) =>
        rw [hl] at h2
        simp only [decide_eq_true_eq, ge_iff_le] at h2
        exact Or.inr ⟨cm, rfl, h2⟩
    · rintro ⟨h1, h2 | h2⟩
      · obtain ⟨cm, cs, hl, hm, hs⟩ := h2
        rw [hl]
        simp [h1, hm, hs]
      · obtain ⟨cm, hl, hm⟩ := h2
        rw [hl]
        simp [h1, hm]
  · intro h
    simp only [parseFileUsesCache, Bool.and_eq_true, decide_eq_true_eq] at h
    unfold parseFile
    rw [if_pos ⟨h.1, h.2⟩]
  · intro h parsedLines
    simp only [parseFileUsesCache, Bool.and_eq_false_iff] at h
    unfold parseFile
    rw [if_neg]
    rintro ⟨h1, h2⟩
    rcases h with h | h
    · rw [h1] at h; simp at h
    · rw [h2] at h; simp at h

/-- Witness for C2's corrected theorem: at the counterexample state the iff's
right side holds with `cached_mtime = 10 ≥ 9 = mtime` and equal sizes, and
`parse_file` serves the cache. -/
theorem c2_cache_validity_witness :
    parseFile c2State "f".data 9 5 [] = (([0] : List Nat), c2State) := by
  have h := (c2_cache_validity_geq_not_eq c2State "f".data 9 5).2.1
  have hu : parseFileUsesCache c2State "f".data 9 5 = true := by decide
  rw [h hu]
  decide

/-! ## C8 — usage result cache

`UsageCalculator._is_cache_valid` (src/backend/services/usage_calculator.py
lines 61-77) and the cache decision path of `get_current_block_usage` (lines
629-640): a quick TTL-only check runs *before* `_parse_project_files`, and the
block-id-aware `_is_cache_valid` is only consulted after the files were already
re-read.  Times are seconds (UTC instants); the cached report payload is
abstracted to a `Nat` identifier. -/

/-- The cache fields of a `UsageCalculator`: `_cache`, `_cache_timestamp`,
`_cache_block_id`.  `CACHE_TTL_SECONDS = 300`. -/
structure UsageCacheState where
  cache : Option Nat
  cacheTimestamp : Option Int
  cacheBlockId : Option (List Char)
deriving DecidableEq

/-- `UsageCalculator._is_cache_valid`: requires a cached value, the *same*
block id, a stamp, and age under the 300 s TTL. -/
def usageIsCacheValid (st : UsageCacheState) (blockId : List Char) (now : Int) : Bool :=
  match st.cache with
  | none => false
  | some _ =>
    if st.cacheBlockId ≠ some blockId then false
    else
      match st.cacheTimestamp with
      | none => false
      | some ts => decide (now - ts < 300)

/-- The quick TTL-based check of `get_current_block_usage` (lines 631-637),
performed *before* any file is read: it consults only the cache's presence and
age, never the block id. -/
def usageQuickCacheHit (st : UsageCacheState) (now : Int) : Bool :=
  match st.cache, st.cacheTimestamp with
  | some _, some ts => decide (now - ts < 300)
  | _, _ => false

/-- `get_current_block_usage` re-reads the usage corpus
(`_parse_project_files`) iff the quick TTL check fails. -/
def getCurrentBlockUsageReadsFiles (st : UsageCacheState) (now : Int) : Bool :=
  ! usageQuickCacheHit st now

/-- C8 counterexample state: a report cached 100 s ago under block id `A`. -/
def c8State : UsageCacheState :=
  { cache := some 0, cacheTimestamp := some 0, cacheBlockId := some "A".data }

/-- C8 counterexample: 100 s after the cache was written the session block has
changed (current block id `B` ≠ stored `A`), yet `get_current_block_usage`
returns the cached report without re-reading any file — the quick TTL check
ignores the block id, so a block change within the 300 s TTL does *not* force
a re-parse, refuting the claim's "only when both ... and the current
session-block identity equals the stored one". -/
theorem c8_counterexample :
    getCurrentBlockUsageReadsFiles c8State 100 = false ∧
    c8State.cacheBlockId ≠ some "B".data ∧
    usageIsCacheValid c8State "B".data 100 = false := by
  refine ⟨by decide, by decide, by decide⟩

/-- C8 (corrected): the cached usage report is returned without re-reading any
file iff the cache and its stamp exist and the age is under 300 s — the
session-block identity is *not* consulted on this path.  The block-id
comparison exists only inside `_is_cache_valid`, which `get_current_block_usage`
reaches only after `_parse_project_files` has already re-read the corpus. -/
theorem c8_cache_ttl_only (st : UsageCacheState) (now : Int) :
    (getCurrentBlockUsageReadsFiles st now = false ↔
      ∃ r ts, st.cache = some r ∧ st.cacheTimestamp = some ts ∧ now - ts < 300) ∧
    (∀ blockId, usageIsCacheValid st blockId now = true →
      st.cacheBlockId = some blockId ∧
      ∃ r ts, st.cache = some r ∧ st.cacheTimestamp = some ts ∧ now - ts < 300) := by
  constructor
  · unfold getCurrentBlockUsageReadsFiles usageQuickCacheHit
    match hc : st.cache, ht : st.cacheTimestamp with
    | some r, some ts =>
      constructor
      · intro h
        refine ⟨r, ts, rfl, rfl, ?_⟩
        simpa using h
      · rintro ⟨r', ts', h1, h2, h3⟩
        injection h2 with h2
        subst h2
        simpa using h3
    | some r, none =>
      constructor
      · intro h; simp at h
      · rintro ⟨r', ts', h1, h2, h3⟩; exact Option.noConfusion h2
    | none, some ts =>
      constructor
      · intro h; simp at h
      · rintro ⟨r', ts', h1, h2, h3⟩; exact Option.noConfusion h1
    | none, none =>
      constructor
      · intro h; simp at h
      · rintro ⟨r', ts', h1, h2, h3⟩; exact Option.noConfusion h1
  · intro blockId h
    unfold usageIsCacheValid at h
    match hc : st.cache, ht : st.cacheTimestamp with
    | some r, some ts =>
      rw [hc, ht] at h
      by_cases hb : st.cacheBlockId ≠ some blockId
      · rw [if_pos hb] at h
        exact absurd h (by simp)
      · rw [if_neg hb] at h
        push_neg at hb
        simp only [decide_eq_true_eq] at h
        exact ⟨hb, r, ts, rfl, rfl, h⟩
    | some r, none =>
      rw [hc, ht] at h
      split at h
      · exact absurd h (by simp)
      · exact absurd h (by simp)
    | none, _ =>
      rw [hc] at h
      exact absurd h (by simp)

/-- Witness for C8's corrected theorem at the counterexample state: age 100 s
is under the TTL, so no file is read, and `_is_cache_valid` would also pass for
the stored block id `A`. -/
theorem c8_cache_ttl_witness :
    getCurrentBlockUsageReadsFiles c8State 100 = false ∧
    c8State.cacheBlockId = some "A".data := by
  constructor
  · exact ((c8_cache_ttl_only c8State 100).1).mpr ⟨0, 0, rfl, rfl, by norm_num⟩
  · exact ((c8_cache_ttl_only c8State 100).2 "A".data (by decide)).1

/-! ## C5/C6/C7 — thread grouping, keyword marking, search-match count

`group_messages_by_user_thread` (src/backend/services/message_grouper.py lines
10-52), `group_conversations_by_thread_array` (lines 88-131),
`StreamingThreadGrouper` (src/backend/services/streaming_grouper.py), and
`_count_search_matches` / `get_conversations` (src/backend/api/routes.py lines
61-71, 119-141). -/

/-- A conversation message as handled by the groupers: the dict keys consulted
are `type`, `content`, `timestamp`, `session_id`, and the mutable annotations
`is_search_match` / `search_keyword` (absent unless set). -/
structure ConvMsg where
  type : List Char
  content : List Char
  timestamp : List Char
  session_id : List Char
  is_search_match : Option Bool := none
  search_keyword : Option (List Char) := none
deriving DecidableEq

/-- `conv["type"] == "user"`. -/
def isUserMsg (m : ConvMsg) : Bool := m.type == "user".data

/-- First pass of `group_messages_by_user_thread`: sweep, closing the current
group at each `user` message. -/
def groupLoop : List ConvMsg → List ConvMsg → List (List ConvMsg)
  | [], current => if current.isEmpty then [] else [current]
  | conv :: rest, current =>
    if ! isUserMsg conv then groupLoop rest (current ++ [conv])
    else if current.isEmpty then groupLoop rest [conv]
    else current :: groupLoop rest [conv]

/-- Second pass of `group_messages_by_user_thread`: a group with no `user`
message is merged into the last filtered group, or dropped when there is
none. -/
def mergePass : List (List ConvMsg) → List (List ConvMsg) → List (List ConvMsg)
  | [], filtered => filtered
  | g :: rest, filtered =>
    if ¬ g.any isUserMsg then
      match filtered with
      | [] => mergePass rest []
      | _ :: _ => mergePass rest (filtered.dropLast ++ [filtered.getLastD [] ++ g])
    else mergePass rest (filtered ++ [g])

/-- `group_messages_by_user_thread`. -/
def groupMessagesByUserThread (conversations : List ConvMsg) : List (List ConvMsg) :=
  mergePass (groupLoop conversations []) []

/-- A group that starts with a `user` message. -/
def GoodGroup (g : List ConvMsg) : Prop :=
  ∃ u t, g = u :: t ∧ isUserMsg u = true

theorem groupLoop_flatten : ∀ (l cur : List ConvMsg),
    (groupLoop l cur).flatten = cur ++ l := by
  intro l
  induction l with
  | nil =>
    intro cur
    by_cases h : cur.isEmpty
    · simp [groupLoop, h, List.isEmpty_iff.mp h]
    · simp [groupLoop, h]
  | cons conv rest ih =>
    intro cur
    by_cases h : isUserMsg conv = true
    · by_cases hc : cur.isEmpty
      · simp [groupLoop, h, hc, ih, List.isEmpty_iff.mp hc]
      · simp [groupLoop, h, hc, ih]
    · simp only [Bool.not_eq_true] at h
      simp [groupLoop, h, ih]

theorem groupLoop_good : ∀ (l cur : List ConvMsg), GoodGroup cur →
    ∀ g ∈ groupLoop l cur, GoodGroup g := by
  intro l
  induction l with
  | nil =>
    intro cur hcur g hg
    obtain ⟨u, t, rfl, hu⟩ := hcur
    simp only [groupLoop, List.isEmpty_cons, ite_false, Bool.false_eq_true] at hg
    simp only [List.mem_singleton] at hg
    exact ⟨u, t, hg, hu⟩
  | cons conv rest ih =>
    intro cur hcur g hg
    obtain ⟨u, t, rfl, hu⟩ := hcur
    by_cases h : isUserMsg conv = true
    · simp only [groupLoop, h, List.isEmpty_cons] at hg
      rw [if_neg (by simp), if_neg (by simp)] at hg
      rcases List.mem_cons.mp hg with hg | hg
      · exact ⟨u, t, hg, hu⟩
      · exact ih [conv] ⟨conv, [], rfl, h⟩ g hg
    · simp only [Bool.not_eq_true] at h
      simp only [groupLoop, h, ite_true] at hg
      exact ih (u :: t ++ [conv]) ⟨u, t ++ [conv], by simp, hu⟩ g hg

theorem goodGroup_any_user {g : List ConvMsg} (h : GoodGroup g) :
    g.any isUserMsg = true := by
  obtain ⟨u, t, rfl, hu⟩ := h
  simp [List.any_cons, hu]

theorem mergePass_goods : ∀ (gs acc : List (List ConvMsg)),
    (∀ g ∈ gs, GoodGroup g) → mergePass gs acc = acc ++ gs := by
  intro gs
  induction gs with
  | nil => intro acc _; simp [mergePass]
  | cons g rest ih =>
    intro acc hgood
    have hany : g.any isUserMsg = true := goodGroup_any_user (hgood g (by simp))
    simp only [mergePass]
    rw [if_neg (not_not_intro hany)]
    rw [ih (acc ++ [g]) fun g' hg' => hgood g' (by simp [hg'])]
    simp

theorem dropWhile_head_not (p : ConvMsg → Bool) :
    ∀ (l : List ConvMsg) (u : ConvMsg) (t : List ConvMsg),
      l.dropWhile p = u :: t → p u = false := by
  intro l
  induction l with
  | nil => intro u t h; simp [List.dropWhile] at h
  | cons c r ih =>
    intro u t h
    by_cases hc : p c = true
    · rw [List.dropWhile_cons_of_pos hc] at h
      exact ih u t h
    · rw [List.dropWhile_cons_of_neg hc] at h
      obtain ⟨rfl, rfl⟩ : c = u ∧ r = t := by
        injection h with h1 h2; exact ⟨h1, h2⟩
      simpa using hc

theorem groupLoop_shape : ∀ (l cur : List ConvMsg), cur ≠ [] →
    groupLoop l cur =
      (cur ++ l.takeWhile (fun m => ! isUserMsg m)) ::
        groupLoop (l.dropWhile fun m => ! isUserMsg m) [] := by
  intro l
  induction l with
  | nil =>
    intro cur hcur
    simp [groupLoop, hcur, List.isEmpty_iff]
  | cons conv rest ih =>
    intro cur hcur
    by_cases h : isUserMsg conv = true
    · have hcE : cur.isEmpty = false := by
        simpa [List.isEmpty_iff] using hcur
      simp only [groupLoop, h, hcE, List.takeWhile_cons, List.dropWhile_cons,
        Bool.not_true, Bool.true_eq_false, ite_false, Bool.false_eq_true,
        List.append_nil]
      simp [groupLoop, h]
    · simp only [Bool.not_eq_true] at h
      simp only [groupLoop, h, ite_true, List.takeWhile_cons, List.dropWhile_cons,
        Bool.not_false]
      rw [ih (cur ++ [conv]) (by simp)]
      simp [h]

/-- C5 (confirmed): every group returned by `group_messages_by_user_thread` is
non-empty and starts with a `user` message, and the concatenation of the
returned groups is the input with its leading non-`user` run removed — so
leading assistant messages with no preceding `user` appear in no group, and
every later assistant run stays attached to the group of the `user` message
before it. -/
theorem c5_thread_groups_start_with_user (input : List ConvMsg) :
    (∀ g ∈ groupMessagesByUserThread input, ∃ u t, g = u :: t ∧ isUserMsg u = true) ∧
    (groupMessagesByUserThread input).flatten =
      input.dropWhile (fun m => ! isUserMsg m) := by
  unfold groupMessagesByUserThread
  cases input with
  | nil => simp [groupLoop, mergePass]
  | cons c rest =>
    by_cases h : isUserMsg c = true
    · have hstart : groupLoop (c :: rest) [] = groupLoop rest [c] := by
        simp [groupLoop, h]
      have hgood : ∀ g ∈ groupLoop rest [c], GoodGroup g :=
        groupLoop_good rest [c] ⟨c, [], rfl, h⟩
      rw [hstart, mergePass_goods _ [] hgood]
      simp only [List.nil_append]
      refine ⟨hgood, ?_⟩
      rw [groupLoop_flatten, List.dropWhile_cons]
      simp [h]
    · simp only [Bool.not_eq_true] at h
      have hstart : groupLoop (c :: rest) [] = groupLoop rest [c] := by
        simp [groupLoop, h]
      rw [hstart, groupLoop_shape rest [c] (by simp)]
      have hbadnone : ¬ ((c :: rest.takeWhile fun m => ! isUserMsg m).any isUserMsg = true) := by
        simp only [List.any_cons, Bool.or_eq_true, not_or, List.any_eq_true,
          not_exists]
        refine ⟨by simp [h], ?_⟩
        intro x
        rw [not_and]
        intro hx
        have := List.mem_takeWhile_imp hx
        simp only [Bool.not_eq_true'] at this
        simp [this]
      simp only [mergePass, List.cons_append, List.nil_append]
      rw [if_pos hbadnone]
      rcases hdweq : rest.dropWhile (fun m => ! isUserMsg m) with _ | ⟨u, t⟩
      · simp only [hdweq, groupLoop, List.isEmpty_nil, ite_true]
        rw [show mergePass [] [] = [] from rfl]
        refine ⟨by simp, ?_⟩
        simp only [List.flatten_nil, List.dropWhile_cons, h, Bool.not_false,
          ite_true]
        exact hdweq.symm
      · have hu : isUserMsg u = true := by
          have := dropWhile_head_not (fun m => ! isUserMsg m) rest u t hdweq
          simpa using this
        have hstart2 : groupLoop (u :: t) [] = groupLoop t [u] := by
          simp [groupLoop, hu]
        have hgood2 : ∀ g ∈ groupLoop t [u], GoodGroup g :=
          groupLoop_good t [u] ⟨u, [], rfl, hu⟩
        rw [hstart2, mergePass_goods _ [] hgood2]
        simp only [List.nil_append]
        refine ⟨hgood2, ?_⟩
        rw [groupLoop_flatten, List.dropWhile_cons]
        simp only [h, Bool.not_false, ite_true]
        rw [hdweq]
        simp

/-- Witness for C5 on the spec's scenario-1 shape with a leading orphan
assistant: the orphan is dropped and both groups start with `user`. -/
theorem c5_thread_groups_witness :
    (groupMessagesByUserThread
        [⟨"assistant".data, "orphan".data, "t0".data, "s".data, none, none⟩,
         ⟨"user".data, "hi".data, "t1".data, "s".data, none, none⟩,
         ⟨"assistant".data, "hello".data, "t2".data, "s".data, none, none⟩]).flatten =
      [⟨"user".data, "hi".data, "t1".data, "s".data, none, none⟩,
       ⟨"assistant".data, "hello".data, "t2".data, "s".data, none, none⟩] := by
  rw [(c5_thread_groups_start_with_user _).2]
  decide

/-- Stable ascending insertion (`list.sort(key=...)` is a stable ascending
sort): an element is placed after every earlier element with a key `<` or equal
to its own. -/
def insortAsc {α : Type} (key : α → List Char) (x : α) : List α → List α
  | [] => [x]
  | y :: ys => if key y < key x then y :: insortAsc key x ys else x :: y :: ys

/-- Python `list.sort(key=...)`: stable, ascending. -/
def pySortAsc {α : Type} (key : α → List Char) (l : List α) : List α :=
  l.foldr (insortAsc key) []

/-- Stable descending insertion (`list.sort(key=..., reverse=True)`). -/
def insortDesc {α : Type} (key : α → List Char) (x : α) : List α → List α
  | [] => [x]
  | y :: ys => if key x < key y then y :: insortDesc key x ys else x :: y :: ys

/-- Python `list.sort(key=..., reverse=True)`: stable, descending. -/
def pySortDesc {α : Type} (key : α → List Char) (l : List α) : List α :=
  l.foldr (insortDesc key) []

/-- The session-grouping dict build of `group_conversations_by_thread_array`
(insertion-ordered keys, append within a key — Python dict semantics). -/
def addToSessionGroups (acc : List (List Char × List ConvMsg)) (c : ConvMsg) :
    List (List Char × List ConvMsg) :=
  if acc.any (fun p => p.1 == c.session_id) then
    acc.map fun p => if p.1 == c.session_id then (p.1, p.2 ++ [c]) else p
  else acc ++ [(c.session_id, [c])]

/-- `group_conversations_by_thread_array`: group by session, sort each session
ascending by timestamp, thread-group it, tag each group with its first
message's timestamp, then stably sort the groups by that timestamp
(descending iff `sort_order == "desc"`). -/
def groupConversationsByThreadArray (conversations : List ConvMsg)
    (sortOrd : List Char) : List (List ConvMsg) :=
  if conversations.isEmpty then []
  else
    let sessionGroups := conversations.foldl addToSessionGroups []
    let allThreadGroups := sessionGroups.foldl
      (fun acc p =>
        let sorted := pySortAsc (fun m => m.timestamp) p.2
        let threadGroups := groupMessagesByUserThread sorted
        acc ++ threadGroups.filterMap fun g =>
          match g with
          | [] => none
          | m :: _ => some (m.timestamp, g)) []
    let reverseSort := sortOrd == "desc".data
    let sortedGroups :=
      if reverseSort then pySortDesc (fun p => p.1) allThreadGroups
      else pySortAsc (fun p => p.1) allThreadGroups
    sortedGroups.map fun p => p.2

/-- `StreamingThreadGrouper._mark_keyword_matches`: sets `is_search_match` on
*every* message of the group to its own match result, but sets
`search_keyword` only on the matching messages; returns the updated group and
whether any message matched. -/
def markKeywordMatches (threadGroup : List ConvMsg) (keyword keywordLower : List Char) :
    List ConvMsg × Bool :=
  threadGroup.foldl
    (fun acc conv =>
      let isMatch := containsSub (pyLower conv.content) keywordLower
      let conv' := { conv with
        is_search_match := some isMatch
        search_keyword := if isMatch then some keyword else conv.search_keyword }
      (acc.1 ++ [conv'], acc.2 || isMatch))
    ([], false)

/-- `StreamingThreadGrouper._apply_keyword_highlighting`: keep only the groups
with at least one match (the `show_related_threads` parameter is not consulted
by the code). -/
def applyKeywordHighlighting (threadGroups : List (List ConvMsg))
    (keyword : List Char) (showRelatedThreads : Bool) : List (List ConvMsg) :=
  let keywordLower := pyLower keyword
  threadGroups.foldl
    (fun filteredGroups g =>
      let r := markKeywordMatches g keyword keywordLower
      if r.2 then filteredGroups ++ [r.1] else filteredGroups) []

/-- `StreamingThreadGrouper._collect_with_early_termination`: append each
streamed conversation; every `CHECK_INTERVAL = 50` conversations, stop if the
grouped count has reached the target. -/
def collectLoop (stream : List ConvMsg) (acc : List ConvMsg) (count targetCount : Nat)
    (sortOrd : List Char) : List ConvMsg :=
  match stream with
  | [] => acc
  | c :: rest =>
    let acc' := acc ++ [c]
    let count' := count + 1
    if count' % 50 = 0 ∧ (groupConversationsByThreadArray acc' sortOrd).length ≥ targetCount
    then acc'
    else collectLoop rest acc' count' targetCount sortOrd

/-- `StreamingThreadGrouper.collect_thread_groups`: early-terminated
collection with `target = int((offset + limit) * 1.5)`, grouping, keyword
filtering when a keyword is given, then the page slice
`[offset : offset + limit]`.  Returns
`(page, total_threads, total_messages)`. -/
def collectThreadGroups (stream : List ConvMsg) (limit offset : Nat)
    (sortOrd : List Char) (keywordFilter : Option (List Char))
    (showRelatedThreads : Bool) : List (List ConvMsg) × Nat × Nat :=
  let targetCount := (offset + limit) * 3 / 2
  let allConversations := collectLoop stream [] 0 targetCount sortOrd
  let allThreadGroups := groupConversationsByThreadArray allConversations sortOrd
  let allThreadGroups :=
    match keywordFilter with
    | some kw =>
      if kw ≠ [] then applyKeywordHighlighting allThreadGroups kw showRelatedThreads
      else allThreadGroups
    | none => allThreadGroups
  ((allThreadGroups.drop offset).take limit, allThreadGroups.length,
    allConversations.length)

/-- `_count_search_matches` (routes.py): count the messages with a truthy
`is_search_match` over the thread groups it is given. -/
def countSearchMatches (threadGroups : List (List ConvMsg))
    (keyword : Option (List Char)) : Nat :=
  match keyword with
  | none => 0
  | some kw =>
    if kw = [] then 0
    else
      threadGroups.foldl
        (fun count g =>
          g.foldl
            (fun count conv =>
              if conv.is_search_match.getD false then count + 1 else count)
            count)
        0

/-- The `search_match_count` that `get_conversations` (routes.py) puts into its
response: `_count_search_matches` applied to the *paginated* `thread_groups`
returned by `collect_thread_groups`. -/
def getConversationsSearchMatchCount (stream : List ConvMsg) (limit offset : Nat)
    (sortOrd : List Char) (keyword : Option (List Char))
    (showRelatedThreads : Bool) : Nat :=
  countSearchMatches
    (collectThreadGroups stream limit offset sortOrd keyword showRelatedThreads).1
    keyword

/-- C6 failing input: one kept thread group, a matching `user` message followed
by a non-matching `assistant` message; keyword `selenium`,
`show_related_threads = true`. -/
def c6Group : List ConvMsg :=
  [⟨"user".data, "tell me about selenium".data, "t1".data, "s1".data, none, none⟩,
   ⟨"assistant".data, "ok".data, "t2".data, "s1".data, none, none⟩]

/-- C6 (code bug): on the failing input the group is kept and every message
gets `is_search_match` set to its own match result, but the non-matching
assistant message does *not* carry `search_keyword` — the code sets
`search_keyword` only under `if is_match`, while the spec and the repo's own
test (`test_search_api.py::test_search_highlight_keywords`, which asserts
`conv["search_keyword"] == "selenium"` for *all* returned messages) require it
on every message of a kept group. -/
theorem c6_search_keyword_missing_on_nonmatches :
    applyKeywordHighlighting [c6Group] "selenium".data true =
      [[⟨"user".data, "tell me about selenium".data, "t1".data, "s1".data,
          some true, some "selenium".data⟩,
        ⟨"assistant".data, "ok".data, "t2".data, "s1".data, some false, none⟩]] ∧
    (∃ g ∈ applyKeywordHighlighting [c6Group] "selenium".data true,
      ∃ m ∈ g, m.is_search_match = some false ∧ m.search_keyword = none) := by
  refine ⟨by decide, ?_⟩
  refine ⟨[⟨"user".data, "tell me about selenium".data, "t1".data, "s1".data,
      some true, some "selenium".data⟩,
    ⟨"assistant".data, "ok".data, "t2".data, "s1".data, some false, none⟩],
    by decide,
    ⟨"assistant".data, "ok".data, "t2".data, "s1".data, some false, none⟩,
    by decide, by decide, by decide⟩

/-- C7 failing input: two single-session threads in ascending order, the first
containing one keyword match and the second two. -/
def c7Stream : List ConvMsg :=
  [⟨"user".data, "about selenium".data, "2025-01-01T10:00:00Z".data, "s1".data, none, none⟩,
   ⟨"assistant".data, "ok".data, "2025-01-01T10:01:00Z".data, "s1".data, none, none⟩,
   ⟨"user".data, "selenium".data, "2025-01-01T10:02:00Z".data, "s2".data, none, none⟩,
   ⟨"assistant".data, "selenium too".data, "2025-01-01T10:03:00Z".data, "s2".data, none, none⟩]

/-- C7 (code bug): `get_conversations` computes `search_match_count` by running
`_count_search_matches` over the already-paginated page, so two queries that
differ only in `offset` (same corpus, same keyword, `limit = 1`) report 1 and
2 matches respectively instead of the page-agnostic total 3 — refuting the
claim (and the repo's own `test_search_api.py::test_search_pagination`, which
expects the full count under pagination). -/
theorem c7_search_match_count_is_per_page :
    getConversationsSearchMatchCount c7Stream 1 0 "asc".data
        (some "selenium".data) true = 1 ∧
    getConversationsSearchMatchCount c7Stream 1 1 "asc".data
        (some "selenium".data) true = 2 ∧
    getConversationsSearchMatchCount c7Stream 10 0 "asc".data
        (some "selenium".data) true = 3 := by
  refine ⟨by decide, by decide, by decide⟩

/-! ## C1 — merging priority queue (k-way merge)

`MessageStreamItem` / `MergingPriorityQueue` (src/backend/services/
merging_priority_queue.py) over CPython's `heapq` (`heappush`, `heappop`,
`_siftdown`, `_siftup`), whose only comparison is
`MessageStreamItem.__lt__`, i.e. the timestamp strings alone.  A
`LazyFileReader` is abstracted to its stream of parsed records (`peek` = head,
`next` = tail), which is all the queue observes of it. -/

/-- A raw JSONL record as seen by the queue: its `timestamp` field
(`''` when missing). -/
structure RawMsg where
  ts : List Char
deriving DecidableEq

/-- A message annotated with `_project_id` and `_file_path` as emitted by
`get_next_message`. -/
structure OutMsg where
  ts : List Char
  project_id : List Char
  file_path : List Char
deriving DecidableEq

/-- `MessageStreamItem`. -/
structure HeapItem where
  timestamp : List Char
  project_id : List Char
  message : OutMsg
  reader_index : Nat
deriving DecidableEq

/-- Placeholder item for out-of-range reads (never reached on the in-bounds
positions the algorithms use). -/
def dItem : HeapItem := ⟨[], [], ⟨[], [], []⟩, 0⟩

/-- `MessageStreamItem.__lt__`: compares timestamps only. -/
def itemLT (a b : HeapItem) : Bool := decide (a.timestamp < b.timestamp)

/-- CPython `heapq._siftdown(heap, startpos, pos)` — the newly placed item
bubbles toward the root. -/
def siftdownGo (startpos : Nat) (newitem : HeapItem) (heap : List HeapItem)
    (pos : Nat) : List HeapItem :=
  if startpos < pos then
    if itemLT newitem (heap.getD ((pos - 1) / 2) dItem) then
      siftdownGo startpos newitem
        (heap.set pos (heap.getD ((pos - 1) / 2) dItem)) ((pos - 1) / 2)
    else heap.set pos newitem
  else heap.set pos newitem
termination_by pos
decreasing_by omega

/-- `heapq._siftdown` reading its `newitem` from `heap[pos]`. -/
def pySiftdown (heap : List HeapItem) (startpos pos : Nat) : List HeapItem :=
  siftdownGo startpos (heap.getD pos dItem) heap pos

/-- The smaller-child choice of `heapq._siftup`:
`if rightpos < endpos and not heap[childpos] < heap[rightpos]:
childpos = rightpos`. -/
def siftupChild (endpos : Nat) (heap : List HeapItem) (pos : Nat) : Nat :=
  if 2 * pos + 2 < endpos ∧
      ¬ itemLT (heap.getD (2 * pos + 1) dItem) (heap.getD (2 * pos + 2) dItem)
  then 2 * pos + 2 else 2 * pos + 1

/-- CPython `heapq._siftup(heap, pos)`: move the hole down to a leaf along the
smaller children, place `newitem` there, then `_siftdown` back toward
`startpos`. -/
def siftupGo (endpos startpos : Nat) (newitem : HeapItem) (heap : List HeapItem)
    (pos : Nat) : List HeapItem :=
  if 2 * pos + 1 < endpos then
    siftupGo endpos startpos newitem
      (heap.set pos (heap.getD (siftupChild endpos heap pos) dItem))
      (siftupChild endpos heap pos)
  else pySiftdown (heap.set pos newitem) startpos pos
termination_by endpos - pos
decreasing_by
  rename_i hlt
  have hc : pos < siftupChild endpos heap pos ∧ siftupChild endpos heap pos < endpos := by
    unfold siftupChild
    split
    · rename_i hcond
      exact ⟨by omega, hcond.1⟩
    · exact ⟨by omega, hlt⟩
  simp only [List.length_set] at *
  omega

/-- `heapq._siftup(heap, pos)`. -/
def pySiftup (heap : List HeapItem) (pos : Nat) : List HeapItem :=
  siftupGo heap.length pos (heap.getD pos dItem) heap pos

/-- `heapq.heappush`: append, then `_siftdown(heap, 0, len(heap) - 1)`. -/
def pyHeappush (heap : List HeapItem) (item : HeapItem) : List HeapItem :=
  pySiftdown (heap ++ [item]) 0 heap.length

/-- `heapq.heappop`: pop the last element; if the heap is still non-empty,
return the old root, move the last element to the root and `_siftup`.  (The
callers guard the empty case with `if not self.heap`.) -/
def pyHeappop (heap : List HeapItem) : Option (HeapItem × List HeapItem) :=
  match heap with
  | [] => none
  | _ :: _ =>
    let lastelt := heap.getLastD dItem
    let rest := heap.dropLast
    match rest with
    | [] => some (lastelt, [])
    | _ :: _ => some (rest.headD dItem, pySiftup (rest.set 0 lastelt) 0)

/-- One open `LazyFileReader` as the queue sees it: its project, its file path
and its remaining stream of records. -/
structure Reader where
  project_id : List Char
  file_path : List Char
  msgs : List RawMsg
deriving DecidableEq

/-- Placeholder reader (never reached on in-range indices). -/
def dReader : Reader := ⟨[], [], []⟩

/-- `MergingPriorityQueue`'s state: `self.readers` (each holding its stream)
and `self.heap`. -/
structure MergeState where
  readers : List Reader
  heap : List HeapItem
deriving DecidableEq

/-- The `MessageStreamItem` built for the head message of reader `i`
(timestamp, project id, message annotated with `_project_id`/`_file_path`). -/
def mkItem (r : Reader) (m : RawMsg) (i : Nat) : HeapItem :=
  ⟨m.ts, r.project_id, ⟨m.ts, r.project_id, r.file_path⟩, i⟩

/-- `_initialize_readers`: sequential reader indices; each non-empty reader's
first (peeked, not consumed) message is pushed. -/
def initHeapAux : List Reader → Nat → List HeapItem → List HeapItem
  | [], _, heap => heap
  | r :: rest, i, heap =>
    initHeapAux rest (i + 1)
      (match r.msgs with
       | [] => heap
       | m :: _ => pyHeappush heap (mkItem r m i))

/-- The flat reader list built from the `project_files` dict
(`{project_id: [file, ...]}` in insertion order). -/
def mkReaders (projectFiles : List (List Char × List (List Char × List RawMsg))) :
    List Reader :=
  (projectFiles.map fun p => p.2.map fun f => Reader.mk p.1 f.1 f.2).flatten

/-- A fresh `MergingPriorityQueue` over the given readers. -/
def initState (readers : List Reader) : MergeState :=
  ⟨readers, initHeapAux readers 0 []⟩

/-- `_refill_from_reader`: consume the previously peeked head of the popped
reader (`reader.next()`), then peek and push its next message if any. -/
def refillFromReader (s : MergeState) (readerIndex : Nat) : MergeState :=
  if readerIndex < s.readers.length then
    match hm : (s.readers.getD readerIndex dReader).msgs with
    | [] => s
    | _ :: rest =>
      let reader := s.readers.getD readerIndex dReader
      let readers' := s.readers.set readerIndex { reader with msgs := rest }
      match rest with
      | [] => { s with readers := readers' }
      | m :: _ =>
        { readers := readers'
          heap := pyHeappush s.heap (mkItem reader m readerIndex) }
  else s

/-- `MergingPriorityQueue.get_next_message`. -/
def getNextMessage (s : MergeState) : Option (OutMsg × MergeState) :=
  match pyHeappop s.heap with
  | none => none
  | some (item, heap') =>
    some (item.message, refillFromReader { s with heap := heap' } item.reader_index)

/-- `MergingPriorityQueue.get_messages_batch`. -/
def getMessagesBatch (s : MergeState) (limit : Nat) : List OutMsg :=
  match limit with
  | 0 => []
  | n + 1 =>
    match getNextMessage s with
    | none => []
    | some (m, s') => m :: getMessagesBatch s' n

theorem siftdownGo_unfold (startpos : Nat) (newitem : HeapItem)
    (heap : List HeapItem) (pos : Nat) :
    siftdownGo startpos newitem heap pos =
      if startpos < pos then
        if itemLT newitem (heap.getD ((pos - 1) / 2) dItem) then
          siftdownGo startpos newitem
            (heap.set pos (heap.getD ((pos - 1) / 2) dItem)) ((pos - 1) / 2)
        else heap.set pos newitem
      else heap.set pos newitem := by
  rw [siftdownGo]

theorem siftupGo_unfold (endpos startpos : Nat) (newitem : HeapItem)
    (heap : List HeapItem) (pos : Nat) :
    siftupGo endpos startpos newitem heap pos =
      if 2 * pos + 1 < endpos then
        siftupGo endpos startpos newitem
          (heap.set pos (heap.getD (siftupChild endpos heap pos) dItem))
          (siftupChild endpos heap pos)
      else pySiftdown (heap.set pos newitem) startpos pos := by
  rw [siftupGo]

theorem heappush_nil (x : HeapItem) : pyHeappush [] x = [x] := by
  unfold pyHeappush pySiftdown
  rw [siftdownGo_unfold]
  simp

theorem heappush_one (y x : HeapItem) (h : itemLT x y = false) :
    pyHeappush [y] x = [y, x] := by
  unfold pyHeappush pySiftdown
  rw [siftdownGo_unfold]
  simp only [List.length_cons, List.length_nil, Nat.zero_add, List.cons_append,
    List.nil_append]
  rw [if_pos (by norm_num)]
  have hget : ([y, x].getD ((1 - 1) / 2) dItem) = y := rfl
  rw [hget, show ([y, x].getD 1 dItem) = x from rfl, h]
  simp

theorem heappop_one (x : HeapItem) : pyHeappop [x] = some (x, []) := by
  simp [pyHeappop]

theorem siftup_singleton (x : HeapItem) : pySiftup [x] 0 = [x] := by
  unfold pySiftup
  rw [siftupGo_unfold]
  simp only [List.length_cons, List.length_nil]
  rw [if_neg (by norm_num)]
  unfold pySiftdown
  rw [siftdownGo_unfold]
  simp

theorem heappop_two (y x : HeapItem) : pyHeappop [y, x] = some (y, [x]) := by
  have h : pyHeappop [y, x] = some (y, pySiftup [x] 0) := rfl
  rw [h, siftup_singleton]

theorem getMessagesBatch_succ (s : MergeState) (n : Nat) (m : OutMsg)
    (s' : MergeState) (h : getNextMessage s = some (m, s')) :
    getMessagesBatch s (n + 1) = m :: getMessagesBatch s' n := by
  simp only [getMessagesBatch]
  rw [h]

/-- The `project_files` of the C1 counterexample: two projects, `b` inserted
before `a` in the dict, one file each, each file holding one record with the
*same* timestamp `t`. -/
def c1ProjectFiles : List (List Char × List (List Char × List RawMsg)) :=
  [("b".data, [("fb".data, [⟨"t".data⟩])]),
   ("a".data, [("fa".data, [⟨"t".data⟩])])]

/-- C1 counterexample: both available head messages carry the same timestamp,
`("a", "fa")` is lexicographically smaller than `("b", "fb")`, yet the queue
emits the `("b", "fb")` message first — `MessageStreamItem.__lt__` compares
timestamps only, so equal-timestamp order is heap insertion order, not the
documented lexicographic `(project_id, file_path)` tie-break. -/
theorem c1_counterexample :
    getMessagesBatch (initState (mkReaders c1ProjectFiles)) 2 =
      [⟨"t".data, "b".data, "fb".data⟩, ⟨"t".data, "a".data, "fa".data⟩] ∧
    ("a".data : List Char) < "b".data := by
  constructor
  · have hreaders : mkReaders c1ProjectFiles =
        [⟨"b".data, "fb".data, [⟨"t".data⟩]⟩, ⟨"a".data, "fa".data, [⟨"t".data⟩]⟩] := by
      decide
    set rb : Reader := ⟨"b".data, "fb".data, [⟨"t".data⟩]⟩ with hrb
    set ra : Reader := ⟨"a".data, "fa".data, [⟨"t".data⟩]⟩ with hra
    set ib : HeapItem := mkItem rb ⟨"t".data⟩ 0 with hib
    set ia : HeapItem := mkItem ra ⟨"t".data⟩ 1 with hia
    have hinit : initState (mkReaders c1ProjectFiles) = ⟨[rb, ra], [ib, ia]⟩ := by
      rw [initState, hreaders]
      show MergeState.mk _ (initHeapAux [rb, ra] 0 []) = _
      have h1 : initHeapAux [rb, ra] 0 [] = initHeapAux [ra] 1 (pyHeappush [] ib) := rfl
      rw [h1, heappush_nil]
      have h2 : initHeapAux [ra] 1 [ib] = initHeapAux [] 2 (pyHeappush [ib] ia) := rfl
      rw [h2, heappush_one ib ia (by decide)]
      rfl
    rw [hinit]
    show getMessagesBatch ⟨[rb, ra], [ib, ia]⟩ 2 = _
    have hb1 : getNextMessage ⟨[rb, ra], [ib, ia]⟩ =
        some (ib.message, ⟨[{rb with msgs := []}, ra], [ia]⟩) := by
      unfold getNextMessage
      rw [heappop_two]
      show some (ib.message, refillFromReader ⟨[rb, ra], [ia]⟩ 0) = _
      unfold refillFromReader
      rw [if_pos (by norm_num)]
      rfl
    have hb2 : getNextMessage ⟨[{rb with msgs := []}, ra], [ia]⟩ =
        some (ia.message, ⟨[{rb with msgs := []}, {ra with msgs := []}], []⟩) := by
      unfold getNextMessage
      rw [heappop_one]
      show some (ia.message, refillFromReader ⟨[{rb with msgs := []}, ra], []⟩ 1) = _
      unfold refillFromReader
      rw [if_pos (by norm_num)]
      rfl
    rw [show (2 : Nat) = 1 + 1 from rfl, getMessagesBatch_succ _ _ _ _ hb1,
      getMessagesBatch_succ _ _ _ _ hb2]
    rfl
  · decide

/-! ### Verification of the heap embedding

The loop invariants mirror the classic "hole" argument: while an item sifts,
all parent/child pairs not involving the hole hold (`pairsExcept`), the hole's
parent already bounds the hole's children (`bridgeAt`), and during
`_siftdown` the sifting item bounds the hole's children (`childBound`). -/

theorem itemLT_false_iff (a b : HeapItem) :
    itemLT a b = false ↔ b.timestamp ≤ a.timestamp := by
  simp [itemLT, not_lt]

theorem itemLT_true_iff (a b : HeapItem) :
    itemLT a b = true ↔ a.timestamp < b.timestamp := by
  simp [itemLT]

theorem getD_set_self (l : List HeapItem) {i : Nat} (h : i < l.length) (x : HeapItem) :
    (l.set i x).getD i dItem = x := by
  rw [List.getD_eq_getElem?_getD, List.getElem?_set_self h]
  rfl

theorem getD_set_ne (l : List HeapItem) {i j : Nat} (h : i ≠ j) (x : HeapItem) :
    (l.set i x).getD j dItem = l.getD j dItem := by
  rw [List.getD_eq_getElem?_getD, List.getD_eq_getElem?_getD, List.getElem?_set_ne h]

theorem getD_append_left (l : List HeapItem) (x : HeapItem) {i : Nat}
    (h : i < l.length) : (l ++ [x]).getD i dItem = l.getD i dItem := by
  rw [List.getD_eq_getElem?_getD, List.getD_eq_getElem?_getD,
    List.getElem?_append_left h]

theorem getD_concat_self (l : List HeapItem) (x : HeapItem) :
    (l ++ [x]).getD l.length dItem = x := by
  rw [List.getD_eq_getElem?_getD, List.getElem?_concat_length]
  rfl

/-- The binary min-heap property (with the `__lt__` of `MessageStreamItem`,
i.e. on timestamps). -/
def heapInv (l : List HeapItem) : Prop :=
  ∀ j, 0 < j → j < l.length →
    (l.getD ((j - 1) / 2) dItem).timestamp ≤ (l.getD j dItem).timestamp

/-- Parent/child pairs hold at every child position other than the hole and
not parented by the hole. -/
def pairsExcept (l : List HeapItem) (pos : Nat) : Prop :=
  ∀ j, 0 < j → j < l.length → j ≠ pos → (j - 1) / 2 ≠ pos →
    (l.getD ((j - 1) / 2) dItem).timestamp ≤ (l.getD j dItem).timestamp

/-- The hole's parent bounds the hole's children (when the hole is not the
root). -/
def bridgeAt (l : List HeapItem) (pos : Nat) : Prop :=
  ∀ j, 0 < j → j < l.length → (j - 1) / 2 = pos → 0 < pos →
    (l.getD ((pos - 1) / 2) dItem).timestamp ≤ (l.getD j dItem).timestamp

/-- The sifting item bounds the hole's children. -/
def childBound (ni : HeapItem) (l : List HeapItem) (pos : Nat) : Prop :=
  ∀ j, 0 < j → j < l.length → (j - 1) / 2 = pos →
    ni.timestamp ≤ (l.getD j dItem).timestamp

theorem heapInv_root_le (l : List HeapItem) (h : heapInv l) :
    ∀ j, j < l.length →
      (l.getD 0 dItem).timestamp ≤ (l.getD j dItem).timestamp := by
  intro j
  induction j using Nat.strong_induction_on with
  | _ j ih =>
    intro hj
    rcases Nat.eq_zero_or_pos j with rfl | hj0
    · exact le_refl _
    · exact le_trans (ih ((j - 1) / 2) (by omega) (by omega)) (h j hj0 hj)

theorem count_set (l : List HeapItem) :
    ∀ (i : Nat), i < l.length → ∀ (b a : HeapItem),
      (l.set i b).count a + (if l.getD i dItem = a then 1 else 0) =
        l.count a + (if b = a then 1 else 0) := by
  induction l with
  | nil => intro i h; simp at h
  | cons x xs ih =>
    intro i h b a
    cases i with
    | zero =>
      simp only [List.set_cons_zero, List.count_cons, List.getD_cons_zero]
      by_cases hxa : x = a <;> by_cases hba : b = a <;>
        simp [hxa, hba] <;> omega
    | succ i' =>
      simp only [List.set_cons_succ, List.count_cons, List.getD_cons_succ]
      have hih := ih i' (by simpa using h) b a
      by_cases hxa : x = a <;> simp [hxa] at hih ⊢ <;> omega

theorem siftdownGo_heapInv (ni : HeapItem) :
    ∀ (pos : Nat) (heap : List HeapItem), pos < heap.length →
      pairsExcept heap pos → bridgeAt heap pos → childBound ni heap pos →
      heapInv (siftdownGo 0 ni heap pos) := by
  intro pos
  induction pos using Nat.strong_induction_on with
  | _ pos ih =>
    intro heap hlen hP hB hC
    rw [siftdownGo_unfold]
    by_cases h0 : 0 < pos
    · rw [if_pos h0]
      by_cases hlt : itemLT ni (heap.getD ((pos - 1) / 2) dItem) = true
      · rw [if_pos hlt]
        apply ih ((pos - 1) / 2) (by omega)
        · simp only [List.length_set]
          omega
        · intro j hj0 hjlen hjq hpjq
          simp only [List.length_set] at hjlen
          by_cases hjpos : j = pos
          · exact absurd (by rw [hjpos]) hpjq
          · by_cases hpj : (j - 1) / 2 = pos
            · rw [getD_set_ne heap (fun he => hjpos he.symm), hpj,
                getD_set_self heap hlen]
              exact hB j hj0 hjlen hpj h0
            · rw [getD_set_ne heap (fun he => hjpos he.symm),
                getD_set_ne heap (fun he => hpj he.symm)]
              exact hP j hj0 hjlen hjpos hpj
        · intro j hj0 hjlen hpjq hq0
          simp only [List.length_set] at hjlen
          rw [getD_set_ne heap (by omega : pos ≠ ((pos - 1) / 2 - 1) / 2)]
          by_cases hjpos : j = pos
          · rw [hjpos, getD_set_self heap hlen]
            exact hP ((pos - 1) / 2) hq0 (by omega) (by omega) (by omega)
          · rw [getD_set_ne heap (fun he => hjpos he.symm)]
            have h1 := hP ((pos - 1) / 2) hq0 (by omega) (by omega) (by omega)
            have h2 := hP j hj0 hjlen hjpos (by omega)
            rw [hpjq] at h2
            exact le_trans h1 h2
        · intro j hj0 hjlen hpjq
          simp only [List.length_set] at hjlen
          have hni : ni.timestamp < (heap.getD ((pos - 1) / 2) dItem).timestamp :=
            (itemLT_true_iff _ _).mp hlt
          by_cases hjpos : j = pos
          · rw [hjpos, getD_set_self heap hlen]
            exact le_of_lt hni
          · rw [getD_set_ne heap (fun he => hjpos he.symm)]
            have h2 := hP j hj0 hjlen hjpos (by omega)
            rw [hpjq] at h2
            exact le_trans (le_of_lt hni) h2
      · rw [if_neg hlt]
        have hfl : itemLT ni (heap.getD ((pos - 1) / 2) dItem) = false := by
          revert hlt
          cases itemLT ni (heap.getD ((pos - 1) / 2) dItem) <;> simp
        intro j hj0 hjlen
        simp only [List.length_set] at hjlen
        by_cases hjpos : j = pos
        · rw [hjpos, getD_set_self heap hlen,
            getD_set_ne heap (by omega : pos ≠ (pos - 1) / 2)]
          exact (itemLT_false_iff _ _).mp hfl
        · by_cases hpj : (j - 1) / 2 = pos
          · rw [hpj, getD_set_self heap hlen,
              getD_set_ne heap (fun he => hjpos he.symm)]
            exact hC j hj0 hjlen hpj
          · rw [getD_set_ne heap (fun he => hjpos he.symm),
              getD_set_ne heap (fun he => hpj he.symm)]
            exact hP j hj0 hjlen hjpos hpj
    · rw [if_neg h0]
      have hpos0 : pos = 0 := by omega
      subst hpos0
      intro j hj0 hjlen
      simp only [List.length_set] at hjlen
      by_cases hpj : (j - 1) / 2 = 0
      · rw [hpj, getD_set_self heap hlen, getD_set_ne heap (by omega : (0 : Nat) ≠ j)]
        exact hC j hj0 hjlen hpj
      · rw [getD_set_ne heap (by omega : (0 : Nat) ≠ j),
          getD_set_ne heap (fun he => hpj he.symm)]
        exact hP j hj0 hjlen (by omega) hpj

theorem siftdownGo_count (ni : HeapItem) :
    ∀ (pos : Nat) (heap : List HeapItem), pos < heap.length → ∀ a,
      (siftdownGo 0 ni heap pos).count a +
          (if heap.getD pos dItem = a then 1 else 0) =
        heap.count a + (if ni = a then 1 else 0) := by
  intro pos
  induction pos using Nat.strong_induction_on with
  | _ pos ih =>
    intro heap hlen a
    rw [siftdownGo_unfold]
    by_cases h0 : 0 < pos
    · rw [if_pos h0]
      by_cases hlt : itemLT ni (heap.getD ((pos - 1) / 2) dItem) = true
      · rw [if_pos hlt]
        have hq : (pos - 1) / 2 <
            (heap.set pos (heap.getD ((pos - 1) / 2) dItem)).length := by
          simp only [List.length_set]
          omega
        have hih := ih ((pos - 1) / 2) (by omega) _ hq a
        rw [getD_set_ne heap (by omega : pos ≠ (pos - 1) / 2)] at hih
        have hcs := count_set heap pos hlen (heap.getD ((pos - 1) / 2) dItem) a
        by_cases h1 : heap.getD ((pos - 1) / 2) dItem = a <;>
          by_cases h2 : heap.getD pos dItem = a <;>
          by_cases h3 : ni = a <;>
          simp [h1, h2, h3] at hih hcs ⊢ <;>
          omega
      · rw [if_neg hlt]
        exact count_set heap pos hlen ni a
    · rw [if_neg h0]
      exact count_set heap pos hlen ni a

theorem pyHeappush_count (heap : List HeapItem) (x a : HeapItem) :
    (pyHeappush heap x).count a = (x :: heap).count a := by
  unfold pyHeappush pySiftdown
  rw [getD_concat_self]
  have h := siftdownGo_count x heap.length (heap ++ [x]) (by simp) a
  rw [getD_concat_self] at h
  by_cases hx : x = a <;>
    simp [hx, List.count_append, List.count_cons] at h ⊢ <;>
    omega

theorem pyHeappush_perm (heap : List HeapItem) (x : HeapItem) :
    (pyHeappush heap x).Perm (x :: heap) :=
  List.perm_iff_count.mpr fun a => pyHeappush_count heap x a

theorem pyHeappush_heapInv (heap : List HeapItem) (x : HeapItem) (h : heapInv heap) :
    heapInv (pyHeappush heap x) := by
  unfold pyHeappush pySiftdown
  rw [getD_concat_self]
  apply siftdownGo_heapInv
  · simp
  · intro j hj0 hjlen hjp hpjp
    simp only [List.length_append, List.length_cons, List.length_nil] at hjlen
    rw [getD_append_left heap x (by omega), getD_append_left heap x (by omega)]
    exact h j hj0 (by omega)
  · intro j hj0 hjlen hpj hq0
    simp only [List.length_append, List.length_cons, List.length_nil] at hjlen
    exact absurd hpj (by omega)
  · intro j hj0 hjlen hpj
    simp only [List.length_append, List.length_cons, List.length_nil] at hjlen
    exact absurd hpj (by omega)

theorem siftupChild_spec (endpos : Nat) (heap : List HeapItem) (pos : Nat)
    (h : 2 * pos + 1 < endpos) :
    (siftupChild endpos heap pos - 1) / 2 = pos ∧
    pos < siftupChild endpos heap pos ∧
    siftupChild endpos heap pos < endpos ∧
    (∀ j, 0 < j → (j - 1) / 2 = pos → j < endpos →
      (heap.getD (siftupChild endpos heap pos) dItem).timestamp ≤
        (heap.getD j dItem).timestamp) := by
  unfold siftupChild
  split
  · rename_i hc
    refine ⟨by omega, by omega, hc.1, ?_⟩
    intro j hj0 hpj hjlt
    have hfl : itemLT (heap.getD (2 * pos + 1) dItem)
        (heap.getD (2 * pos + 2) dItem) = false := by
      rcases hb : itemLT (heap.getD (2 * pos + 1) dItem)
          (heap.getD (2 * pos + 2) dItem) with _ | _
      · rfl
      · exact absurd hb hc.2
    have hj : j = 2 * pos + 1 ∨ j = 2 * pos + 2 := by omega
    rcases hj with rfl | rfl
    · exact (itemLT_false_iff _ _).mp hfl
    · exact le_refl _
  · rename_i hc
    refine ⟨by omega, by omega, h, ?_⟩
    intro j hj0 hpj hjlt
    have hj : j = 2 * pos + 1 ∨ j = 2 * pos + 2 := by omega
    rcases hj with rfl | rfl
    · exact le_refl _
    · have h2 : 2 * pos + 2 < endpos := hjlt
      have htrue : itemLT (heap.getD (2 * pos + 1) dItem)
          (heap.getD (2 * pos + 2) dItem) = true := by
        by_contra hn
        exact hc ⟨h2, hn⟩
      exact le_of_lt ((itemLT_true_iff _ _).mp htrue)

theorem siftupGo_heapInv (ni : HeapItem) (endpos : Nat) :
    ∀ (pos : Nat) (heap : List HeapItem), pos < heap.length →
      heap.length = endpos → pairsExcept heap pos → bridgeAt heap pos →
      heapInv (siftupGo endpos 0 ni heap pos) := by
  suffices H : ∀ (n pos : Nat) (heap : List HeapItem), endpos - pos = n →
      pos < heap.length → heap.length = endpos → pairsExcept heap pos →
      bridgeAt heap pos → heapInv (siftupGo endpos 0 ni heap pos) by
    exact fun pos heap h1 h2 h3 h4 => H (endpos - pos) pos heap rfl h1 h2 h3 h4
  intro n
  induction n using Nat.strong_induction_on with
  | _ n ih =>
    intro pos heap hn hlen hlen2 hP hB
    rw [siftupGo_unfold]
    by_cases hch : 2 * pos + 1 < endpos
    · rw [if_pos hch]
      obtain ⟨hcp_par, hcp_gt, hcp_lt, hcp_min⟩ := siftupChild_spec endpos heap pos hch
      apply ih (endpos - siftupChild endpos heap pos) (by omega) _ _ rfl
      · simp only [List.length_set]
        omega
      · simp only [List.length_set]
        exact hlen2
      · intro j hj0 hjlen hjcp hpjcp
        simp only [List.length_set] at hjlen
        by_cases hjpos : j = pos
        · rcases Nat.eq_zero_or_pos pos with hz | h0
          · exact absurd hj0 (by omega)
          · rw [hjpos, getD_set_self heap hlen,
              getD_set_ne heap (by omega : pos ≠ (pos - 1) / 2)]
            exact hB (siftupChild endpos heap pos) (by omega) (by omega) hcp_par h0
        · by_cases hpj : (j - 1) / 2 = pos
          · rw [hpj, getD_set_self heap hlen,
              getD_set_ne heap (fun he => hjpos he.symm)]
            exact hcp_min j hj0 hpj (by omega)
          · rw [getD_set_ne heap (fun he => hjpos he.symm),
              getD_set_ne heap (fun he => hpj he.symm)]
            exact hP j hj0 (by omega) hjpos hpj
      · intro j hj0 hjlen hpj hcp0
        simp only [List.length_set] at hjlen
        rw [hcp_par, getD_set_self heap hlen]
        have hjpos : j ≠ pos := by omega
        rw [getD_set_ne heap (fun he => hjpos he.symm)]
        have h2 := hP j hj0 (by omega) hjpos (by omega)
        rw [hpj] at h2
        exact h2
    · rw [if_neg hch]
      unfold pySiftdown
      rw [getD_set_self heap hlen]
      apply siftdownGo_heapInv
      · simp only [List.length_set]
        exact hlen
      · intro j hj0 hjlen hjp hpjp
        simp only [List.length_set] at hjlen
        rw [getD_set_ne heap (fun he => hjp he.symm),
          getD_set_ne heap (fun he => hpjp he.symm)]
        exact hP j hj0 hjlen hjp hpjp
      · intro j hj0 hjlen hpj hq0
        simp only [List.length_set] at hjlen
        exact absurd hpj (by omega)
      · intro j hj0 hjlen hpj
        simp only [List.length_set] at hjlen
        exact absurd hpj (by omega)

theorem siftupGo_count (ni : HeapItem) (endpos : Nat) :
    ∀ (n pos : Nat) (heap : List HeapItem), endpos - pos = n →
      pos < heap.length → heap.length = endpos → ∀ a,
      (siftupGo endpos 0 ni heap pos).count a +
          (if heap.getD pos dItem = a then 1 else 0) =
        heap.count a + (if ni = a then 1 else 0) := by
  intro n
  induction n using Nat.strong_induction_on with
  | _ n ih =>
    intro pos heap hn hlen hlen2 a
    rw [siftupGo_unfold]
    by_cases hch : 2 * pos + 1 < endpos
    · rw [if_pos hch]
      obtain ⟨hcp_par, hcp_gt, hcp_lt, hcp_min⟩ := siftupChild_spec endpos heap pos hch
      have hih := ih (endpos - siftupChild endpos heap pos) (by omega)
        (siftupChild endpos heap pos)
        (heap.set pos (heap.getD (siftupChild endpos heap pos) dItem)) rfl
        (by simp only [List.length_set]; omega)
        (by simp only [List.length_set]; exact hlen2) a
      rw [getD_set_ne heap (by omega : pos ≠ siftupChild endpos heap pos)] at hih
      have hcs := count_set heap pos hlen
        (heap.getD (siftupChild endpos heap pos) dItem) a
      by_cases h1 : heap.getD (siftupChild endpos heap pos) dItem = a <;>
        by_cases h2 : heap.getD pos dItem = a <;>
        by_cases h3 : ni = a <;>
        simp [h1, h2, h3] at hih hcs ⊢ <;>
        omega
    · rw [if_neg hch]
      unfold pySiftdown
      rw [getD_set_self heap hlen]
      have hsd := siftdownGo_count ni pos (heap.set pos ni)
        (by simp only [List.length_set]; exact hlen) a
      rw [getD_set_self heap hlen] at hsd
      have hcs := count_set heap pos hlen ni a
      by_cases h2 : heap.getD pos dItem = a <;>
        by_cases h3 : ni = a <;>
        simp [h2, h3] at hsd hcs ⊢ <;>
        omega

theorem getD_dropLast (l : List HeapItem) :
    ∀ {i : Nat}, i < l.length - 1 → l.dropLast.getD i dItem = l.getD i dItem := by
  induction l with
  | nil => intro i h; simp at h
  | cons x xs ih =>
    intro i h
    cases xs with
    | nil => simp at h
    | cons y ys =>
      cases i with
      | zero => rfl
      | succ i' =>
        simp only [List.dropLast_cons₂, List.getD_cons_succ]
        exact ih (by simp at h ⊢; omega)

theorem count_dropLast_getLastD (x : HeapItem) :
    ∀ (l : List HeapItem) (a : HeapItem),
      (x :: l).dropLast.count a +
          (if (x :: l).getLastD dItem = a then 1 else 0) = (x :: l).count a := by
  intro l
  induction l generalizing x with
  | nil =>
    intro a
    simp only [List.dropLast_single, List.count_nil, List.getLastD_cons,
      List.getLastD_nil, List.count_cons, List.count_nil]
    by_cases hx : x = a <;> simp [hx]
  | cons y ys ih =>
    intro a
    have hih := ih y a
    simp only [List.dropLast_cons₂, List.count_cons, List.getLastD_cons,
      beq_iff_eq] at hih ⊢
    omega

theorem pyHeappop_spec (heap : List HeapItem) (r : HeapItem) (t : List HeapItem)
    (hinv : heapInv heap) (heq : heap = r :: t) :
    ∃ heap', pyHeappop heap = some (r, heap') ∧ heapInv heap' ∧
      heap.Perm (r :: heap') := by
  subst heq
  cases t with
  | nil =>
    exact ⟨[], heappop_one r, fun j hj0 hjlen => absurd hjlen (by simp),
      List.Perm.refl _⟩
  | cons y ys =>
    have hrest : (r :: y :: ys).dropLast = r :: (y :: ys).dropLast := by
      simp [List.dropLast_cons₂]
    have hpop : pyHeappop (r :: y :: ys) =
        some (r, pySiftup (((r :: y :: ys).dropLast).set 0
          ((r :: y :: ys).getLastD dItem)) 0) := by
      conv_lhs => rw [pyHeappop]
      rw [hrest]
      rfl
    have hrl : ((r :: y :: ys).dropLast).length = ys.length + 1 := by simp
    have hrl0 : 0 < ((r :: y :: ys).dropLast).length := by omega
    have hinv' : heapInv (pySiftup (((r :: y :: ys).dropLast).set 0
        ((r :: y :: ys).getLastD dItem)) 0) := by
      unfold pySiftup
      rw [getD_set_self _ hrl0]
      apply siftupGo_heapInv _ _ 0 _ (by simpa using hrl0) rfl
      · intro j hj0 hjlen hjp hpjp
        simp only [List.length_set] at hjlen
        rw [getD_set_ne _ (fun he => hjp he.symm),
          getD_set_ne _ (fun he => hpjp he.symm)]
        rw [getD_dropLast _ (by simp at hjlen ⊢; omega),
          getD_dropLast _ (by simp at hjlen ⊢; omega)]
        exact hinv j hj0 (by simp at hjlen ⊢; omega)
      · intro j hj0 hjlen hpj hq0
        exact absurd hq0 (by omega)
    refine ⟨_, hpop, hinv', ?_⟩
    apply List.perm_iff_count.mpr
    intro a
    have hsu : pySiftup (((r :: y :: ys).dropLast).set 0
        ((r :: y :: ys).getLastD dItem)) 0 =
        siftupGo (((r :: y :: ys).dropLast).set 0
          ((r :: y :: ys).getLastD dItem)).length 0
          ((r :: y :: ys).getLastD dItem)
          (((r :: y :: ys).dropLast).set 0 ((r :: y :: ys).getLastD dItem)) 0 := by
      unfold pySiftup
      rw [getD_set_self _ hrl0]
    have hsc := siftupGo_count ((r :: y :: ys).getLastD dItem)
      (((r :: y :: ys).dropLast).set 0 ((r :: y :: ys).getLastD dItem)).length
      ((((r :: y :: ys).dropLast).set 0 ((r :: y :: ys).getLastD dItem)).length - 0)
      0 (((r :: y :: ys).dropLast).set 0 ((r :: y :: ys).getLastD dItem)) rfl
      (by simpa using hrl0) rfl a
    rw [getD_set_self _ hrl0] at hsc
    have hcs := count_set ((r :: y :: ys).dropLast) 0 hrl0
      ((r :: y :: ys).getLastD dItem) a
    have hr0 : ((r :: y :: ys).dropLast).getD 0 dItem = r := by
      rw [hrest]
      rfl
    rw [hr0] at hcs
    have hwhole := count_dropLast_getLastD r (y :: ys) a
    have hcons : (r :: siftupGo (((r :: y :: ys).dropLast).set 0
        ((r :: y :: ys).getLastD dItem)).length 0
        ((r :: y :: ys).getLastD dItem)
        (((r :: y :: ys).dropLast).set 0 ((r :: y :: ys).getLastD dItem)) 0).count a =
        (if r = a then 1 else 0) +
          (siftupGo (((r :: y :: ys).dropLast).set 0
            ((r :: y :: ys).getLastD dItem)).length 0
            ((r :: y :: ys).getLastD dItem)
            (((r :: y :: ys).dropLast).set 0
              ((r :: y :: ys).getLastD dItem)) 0).count a := by
      simp only [List.count_cons]
      by_cases hra : r = a <;> simp [hra] <;> omega
    rw [hsu, hcons]
    by_cases h1 : r = a <;>
      by_cases h2 : (r :: y :: ys).getLastD dItem = a <;>
      simp [h1, h2] at hsc hcs hwhole ⊢ <;> omega

theorem pyHeappop_root (heap : List HeapItem) (r : HeapItem) (heap' : List HeapItem)
    (hpop : pyHeappop heap = some (r, heap')) : heap.getD 0 dItem = r := by
  cases heap with
  | nil => simp [pyHeappop] at hpop
  | cons x t =>
    cases t with
    | nil =>
      rw [heappop_one] at hpop
      injection hpop with h
      injection h with h1 _
    | cons y ys =>
      have hrest : (x :: y :: ys).dropLast = x :: (y :: ys).dropLast := by
        simp [List.dropLast_cons₂]
      have hpop2 : pyHeappop (x :: y :: ys) =
          some (x, pySiftup (((x :: y :: ys).dropLast).set 0
            ((x :: y :: ys).getLastD dItem)) 0) := by
        conv_lhs => rw [pyHeappop]
        rw [hrest]
        rfl
      rw [hpop2] at hpop
      injection hpop with h
      injection h with h1 _

theorem mem_getD_of_mem (l : List HeapItem) (x : HeapItem) (h : x ∈ l) :
    ∃ i, i < l.length ∧ l.getD i dItem = x := by
  induction l with
  | nil => simp at h
  | cons a as ih =>
    rcases List.mem_cons.mp h with rfl | h'
    · exact ⟨0, by simp, rfl⟩
    · obtain ⟨i, hi, hg⟩ := ih h'
      exact ⟨i + 1, by simpa using hi, by simpa using hg⟩

theorem pyHeappop_min (heap : List HeapItem) (r : HeapItem) (heap' : List HeapItem)
    (hinv : heapInv heap) (hpop : pyHeappop heap = some (r, heap')) :
    ∀ x ∈ heap, r.timestamp ≤ x.timestamp := by
  intro x hx
  obtain ⟨i, hi, hg⟩ := mem_getD_of_mem heap x hx
  rw [← pyHeappop_root heap r heap' hpop, ← hg]
  exact heapInv_root_le heap hinv i hi

/-! ### The merge-level invariant

Every heap item is the *peeked, not yet consumed* head of its reader's stream,
heap items reference pairwise distinct readers, and the heap is a min-heap.
`get_next_message` preserves this and emits a timestamp bounding the whole
remaining heap from below, which yields monotonicity of the batch. -/

/-- Executable check that a record stream is sorted non-decreasingly by
timestamp (Python string comparison on the raw `timestamp` fields). -/
def rawSortedB : List RawMsg → Bool
  | [] => true
  | a :: t =>
    match t with
    | [] => true
    | b :: _ => (!(decide (b.ts < a.ts))) && rawSortedB t

theorem rawSortedB_chain (l : List RawMsg) (h : rawSortedB l = true) :
    l.Chain' (fun a b => a.ts ≤ b.ts) := by
  induction l with
  | nil => simp
  | cons a t ih =>
    cases t with
    | nil => simp
    | cons b t' =>
      simp only [rawSortedB, Bool.and_eq_true, Bool.not_eq_true',
        decide_eq_false_iff_not] at h
      exact List.chain'_cons.mpr ⟨not_lt.mp h.1, ih h.2⟩

theorem readerGetD_set_self (l : List Reader) {i : Nat} (h : i < l.length)
    (x : Reader) : (l.set i x).getD i dReader = x := by
  rw [List.getD_eq_getElem?_getD, List.getElem?_set_self h]
  rfl

theorem readerGetD_set_ne (l : List Reader) {i j : Nat} (h : i ≠ j) (x : Reader) :
    (l.set i x).getD j dReader = l.getD j dReader := by
  rw [List.getD_eq_getElem?_getD, List.getD_eq_getElem?_getD, List.getElem?_set_ne h]

theorem readerGetD_mem (l : List Reader) {i : Nat} (h : i < l.length) :
    l.getD i dReader ∈ l := by
  rw [List.getD_eq_getElem _ _ h]
  exact List.getElem_mem h

/-- A heap item is in range, carries its timestamp on its message, and is the
pending (peeked) head of its reader's stream. -/
def ItemOK (readers : List Reader) (it : HeapItem) : Prop :=
  it.reader_index < readers.length ∧
  it.message.ts = it.timestamp ∧
  ∃ rest, (readers.getD it.reader_index dReader).msgs =
    RawMsg.mk it.timestamp :: rest

/-- The `MergingPriorityQueue` invariant. -/
def MInv (s : MergeState) : Prop :=
  heapInv s.heap ∧
  (s.heap.map HeapItem.reader_index).Nodup ∧
  ∀ it ∈ s.heap, ItemOK s.readers it

/-- All remaining reader streams are sorted non-decreasingly by timestamp. -/
def readersSorted (s : MergeState) : Prop :=
  ∀ r ∈ s.readers, r.msgs.Chain' (fun a b => a.ts ≤ b.ts)

theorem initHeapAux_inv (readers : List Reader) :
    ∀ (rs : List Reader) (i : Nat) (heap : List HeapItem),
      readers.drop i = rs →
      heapInv heap →
      (heap.map HeapItem.reader_index).Nodup →
      (∀ it ∈ heap, it.reader_index < i) →
      (∀ it ∈ heap, it.message.ts = it.timestamp ∧
        ∃ rest, (readers.getD it.reader_index dReader).msgs =
          RawMsg.mk it.timestamp :: rest) →
      heapInv (initHeapAux rs i heap) ∧
      ((initHeapAux rs i heap).map HeapItem.reader_index).Nodup ∧
      (∀ it ∈ initHeapAux rs i heap, it.reader_index < i + rs.length) ∧
      (∀ it ∈ initHeapAux rs i heap, it.message.ts = it.timestamp ∧
        ∃ rest, (readers.getD it.reader_index dReader).msgs =
          RawMsg.mk it.timestamp :: rest) := by
  intro rs
  induction rs with
  | nil =>
    intro i heap _ h1 h2 h3 h4
    exact ⟨h1, h2, fun it hit => by simpa using h3 it hit, h4⟩
  | cons r rs' ih =>
    intro i heap hdrop h1 h2 h3 h4
    have hdrop' : readers.drop (i + 1) = rs' := by
      rw [← List.tail_drop, hdrop]
      exact List.tail_cons
    have hri : readers[i]? = some r := by
      have h0 : (readers.drop i)[0]? = some r := by
        rw [hdrop]
        exact List.getElem?_cons_zero
      rwa [List.getElem?_drop, Nat.add_zero] at h0
    have hgetD : readers.getD i dReader = r := by
      rw [List.getD_eq_getElem?_getD, hri]
      rfl
    cases hm : r.msgs with
    | nil =>
      have hred : initHeapAux (r :: rs') i heap = initHeapAux rs' (i + 1) heap := by
        simp only [initHeapAux, hm]
      rw [hred]
      obtain ⟨a1, a2, a3, a4⟩ := ih (i + 1) heap hdrop' h1 h2
        (fun it hit => by have := h3 it hit; omega) h4
      refine ⟨a1, a2, fun it hit => ?_, a4⟩
      have := a3 it hit
      simp only [List.length_cons]
      omega
    | cons m ms =>
      have hred : initHeapAux (r :: rs') i heap =
          initHeapAux rs' (i + 1) (pyHeappush heap (mkItem r m i)) := by
        simp only [initHeapAux, hm]
      rw [hred]
      have hperm := pyHeappush_perm heap (mkItem r m i)
      have hmem : ∀ it ∈ pyHeappush heap (mkItem r m i),
          it = mkItem r m i ∨ it ∈ heap := by
        intro it hit
        simpa [List.mem_cons] using hperm.mem_iff.mp hit
      obtain ⟨a1, a2, a3, a4⟩ := ih (i + 1) (pyHeappush heap (mkItem r m i)) hdrop'
        (pyHeappush_heapInv heap _ h1)
        ((hperm.map HeapItem.reader_index).nodup_iff.mpr (by
          simp only [List.map_cons, List.nodup_cons]
          refine ⟨fun hmm => ?_, h2⟩
          obtain ⟨it, hit, hidx⟩ := List.mem_map.mp hmm
          have := h3 it hit
          simp only [mkItem] at hidx
          omega))
        (fun it hit => by
          rcases hmem it hit with rfl | hold
          · simp [mkItem]
          · have := h3 it hold; omega)
        (fun it hit => by
          rcases hmem it hit with rfl | hold
          · refine ⟨rfl, ms, ?_⟩
            show (readers.getD i dReader).msgs = RawMsg.mk m.ts :: ms
            rw [hgetD, hm]
          · exact h4 it hold)
      refine ⟨a1, a2, fun it hit => ?_, a4⟩
      have := a3 it hit
      simp only [List.length_cons]
      omega

theorem initState_inv (readers : List Reader) : MInv (initState readers) := by
  obtain ⟨a1, a2, a3, a4⟩ := initHeapAux_inv readers readers 0 [] (by simp)
    (fun j _ hjlen => absurd hjlen (by simp)) (by simp) (by simp) (by simp)
  exact ⟨a1, a2, fun it hit =>
    ⟨by simpa using a3 it hit, (a4 it hit).1, (a4 it hit).2⟩⟩

theorem refillFromReader_eq (s : MergeState) (idx : Nat)
    (hlt : idx < s.readers.length) (m0 : RawMsg) (rest : List RawMsg)
    (hmsgs : (s.readers.getD idx dReader).msgs = m0 :: rest) :
    refillFromReader s idx =
      match rest with
      | [] => MergeState.mk
          (s.readers.set idx { s.readers.getD idx dReader with msgs := rest })
          s.heap
      | m :: _ => MergeState.mk
          (s.readers.set idx { s.readers.getD idx dReader with msgs := rest })
          (pyHeappush s.heap (mkItem (s.readers.getD idx dReader) m idx)) := by
  unfold refillFromReader
  rw [if_pos hlt]
  split
  · rename_i heq
    rw [hmsgs] at heq
    exact absurd heq (by simp)
  · rename_i head tail heq
    rw [hmsgs] at heq
    injection heq with hh ht
    subst hh
    subst ht
    cases rest with
    | nil => rfl
    | cons a b => rfl

theorem getNextMessage_spec (s : MergeState) (m : OutMsg) (s' : MergeState)
    (hminv : MInv s) (hsort : readersSorted s)
    (h : getNextMessage s = some (m, s')) :
    MInv s' ∧ readersSorted s' ∧ (∀ it ∈ s'.heap, m.ts ≤ it.timestamp) ∧
    ∀ b : List Char, (∀ it ∈ s.heap, b ≤ it.timestamp) → b ≤ m.ts := by
  obtain ⟨hinv, hnodup, hok⟩ := hminv
  cases hpop : pyHeappop s.heap with
  | none =>
    have : getNextMessage s = none := by
      unfold getNextMessage
      rw [hpop]
    rw [this] at h
    exact absurd h (by simp)
  | some p =>
    obtain ⟨item, heap₁⟩ := p
    have h2 : some (item.message,
        refillFromReader (MergeState.mk s.readers heap₁) item.reader_index) =
        some (m, s') := by
      rw [← h]
      show _ = getNextMessage s
      unfold getNextMessage
      rw [hpop]
    simp only [Option.some.injEq, Prod.mk.injEq] at h2
    obtain ⟨hm, hs'⟩ := h2
    have hne : s.heap ≠ [] := by
      intro hnil
      rw [hnil] at hpop
      exact absurd hpop (by simp [pyHeappop])
    obtain ⟨h0, t, hheap⟩ : ∃ h0 t, s.heap = h0 :: t := by
      cases hh : s.heap with
      | nil => exact absurd hh hne
      | cons a b => exact ⟨a, b, rfl⟩
    obtain ⟨heap₂, hpop₂, hinv₂, hperm₂⟩ := pyHeappop_spec s.heap h0 t hinv hheap
    rw [hpop] at hpop₂
    simp only [Option.some.injEq, Prod.mk.injEq] at hpop₂
    obtain ⟨rfl, rfl⟩ := hpop₂
    have hperm : s.heap.Perm (item :: heap₁) := hperm₂
    have hmin := pyHeappop_min s.heap item heap₁ hinv hpop
    have hitem : item ∈ s.heap := hperm.mem_iff.mpr (List.mem_cons_self _ _)
    have hsub : ∀ x ∈ heap₁, x ∈ s.heap := fun x hx =>
      hperm.mem_iff.mpr (List.mem_cons_of_mem _ hx)
    have hnd : item.reader_index ∉ heap₁.map HeapItem.reader_index ∧
        (heap₁.map HeapItem.reader_index).Nodup := by
      have hh := (hperm.map HeapItem.reader_index).nodup_iff.mp hnodup
      simpa [List.nodup_cons] using hh
    obtain ⟨hok1, hok2, rest, hmsgs⟩ := hok item hitem
    have hmts : m.ts = item.timestamp := hm ▸ hok2
    have hidxne : ∀ it ∈ heap₁, item.reader_index ≠ it.reader_index := by
      intro it hit he
      exact hnd.1 (List.mem_map.mpr ⟨it, hit, he.symm⟩)
    have hred := refillFromReader_eq (MergeState.mk s.readers heap₁)
      item.reader_index hok1 (RawMsg.mk item.timestamp) rest hmsgs
    rw [hred] at hs'
    have hchain : (RawMsg.mk item.timestamp :: rest).Chain'
        (fun a b => a.ts ≤ b.ts) := by
      rw [← hmsgs]
      exact hsort _ (readerGetD_mem s.readers hok1)
    cases rest with
    | nil =>
      have hs'' : MergeState.mk (s.readers.set item.reader_index
          { s.readers.getD item.reader_index dReader with
            msgs := ([] : List RawMsg) }) heap₁ = s' := hs'
      subst hs''
      refine ⟨⟨hinv₂, hnd.2, ?_⟩, ?_, ?_, ?_⟩
      · intro it hit
        obtain ⟨b1, b2, r2, hm2⟩ := hok it (hsub it hit)
        refine ⟨by simpa [List.length_set] using b1, b2, r2, ?_⟩
        show ((s.readers.set item.reader_index _).getD it.reader_index dReader).msgs = _
        rw [readerGetD_set_ne _ (hidxne it hit)]
        exact hm2
      · intro r' hr'
        rcases List.mem_or_eq_of_mem_set hr' with hold | rfl
        · exact hsort r' hold
        · simp
      · intro it hit
        rw [hmts]
        exact hmin it (hsub it hit)
      · intro b hb
        rw [hmts]
        exact hb item hitem
    | cons m' ms =>
      have hs'' : MergeState.mk (s.readers.set item.reader_index
          { s.readers.getD item.reader_index dReader with msgs := m' :: ms })
          (pyHeappush heap₁
            (mkItem (s.readers.getD item.reader_index dReader) m'
              item.reader_index)) = s' := hs'
      subst hs''
      have hperm' := pyHeappush_perm heap₁
        (mkItem (s.readers.getD item.reader_index dReader) m' item.reader_index)
      have hmem' : ∀ it ∈ pyHeappush heap₁
          (mkItem (s.readers.getD item.reader_index dReader) m'
            item.reader_index),
          it = mkItem (s.readers.getD item.reader_index dReader) m'
            item.reader_index ∨ it ∈ heap₁ := by
        intro it hit
        simpa [List.mem_cons] using hperm'.mem_iff.mp hit
      refine ⟨⟨pyHeappush_heapInv _ _ hinv₂, ?_, ?_⟩, ?_, ?_, ?_⟩
      · apply (hperm'.map HeapItem.reader_index).nodup_iff.mpr
        simp only [List.map_cons, List.nodup_cons]
        exact ⟨hnd.1, hnd.2⟩
      · intro it hit
        rcases hmem' it hit with rfl | hold
        · refine ⟨by simpa [List.length_set] using hok1, rfl, ms, ?_⟩
          show ((s.readers.set item.reader_index _).getD item.reader_index
            dReader).msgs = m' :: ms
          rw [readerGetD_set_self _ hok1]
        · obtain ⟨b1, b2, r2, hm2⟩ := hok it (hsub it hold)
          refine ⟨by simpa [List.length_set] using b1, b2, r2, ?_⟩
          show ((s.readers.set item.reader_index _).getD it.reader_index
            dReader).msgs = _
          rw [readerGetD_set_ne _ (hidxne it hold)]
          exact hm2
      · intro r' hr'
        rcases List.mem_or_eq_of_mem_set hr' with hold | rfl
        · exact hsort r' hold
        · exact (List.chain'_cons.mp hchain).2
      · intro it hit
        rcases hmem' it hit with rfl | hold
        · rw [hmts]
          exact (List.chain'_cons.mp hchain).1
        · rw [hmts]
          exact hmin it (hsub it hold)
      · intro b hb
        rw [hmts]
        exact hb item hitem

theorem getMessagesBatch_sorted_aux (n : Nat) :
    ∀ s : MergeState, MInv s → readersSorted s →
      (getMessagesBatch s n).Chain' (fun a b => a.ts ≤ b.ts) ∧
      ∀ b : List Char, (∀ it ∈ s.heap, b ≤ it.timestamp) →
        ∀ y ∈ (getMessagesBatch s n).head?, b ≤ y.ts := by
  induction n with
  | zero =>
    intro s _ _
    exact ⟨by simp [getMessagesBatch], by simp [getMessagesBatch]⟩
  | succ n ih =>
    intro s hminv hsort
    cases hnext : getNextMessage s with
    | none =>
      have hb : getMessagesBatch s (n + 1) = [] := by
        simp only [getMessagesBatch]
        rw [hnext]
      rw [hb]
      exact ⟨by simp, by simp⟩
    | some p =>
      obtain ⟨m, s'⟩ := p
      obtain ⟨hminv', hsort', hlb', hub⟩ := getNextMessage_spec s m s' hminv hsort hnext
      obtain ⟨ihc, ihh⟩ := ih s' hminv' hsort'
      have hbatch := getMessagesBatch_succ s n m s' hnext
      rw [hbatch]
      constructor
      · exact List.chain'_cons'.mpr ⟨fun y hy => ihh m.ts hlb' y hy, ihc⟩
      · intro b hb y hy
        simp only [List.head?_cons, Option.mem_def, Option.some.injEq] at hy
        subst hy
        exact hub b hb

/-- **C1.** The claim has two parts.  The ordering part holds and is proved
here (amended): for every `project_files` collection whose per-file record
streams are sorted non-decreasingly by timestamp, the stream produced by
`get_messages_batch` (repeated `get_next_message`) is monotonically
non-decreasing in timestamp.  The tie-break part is false —
`MessageStreamItem.__lt__` compares timestamps only, so equal-timestamp
messages are emitted in heap order, not by the lexicographically smaller
`(project_id, file_path)` pair; see `c1_counterexample`. -/
theorem c1_batch_monotone
    (projectFiles : List (List Char × List (List Char × List RawMsg)))
    (limit : Nat)
    (hsort : ∀ p ∈ projectFiles, ∀ f ∈ p.2, rawSortedB f.2 = true) :
    (getMessagesBatch (initState (mkReaders projectFiles)) limit).Chain'
      (fun a b => a.ts ≤ b.ts) := by
  have hmem : ∀ r ∈ mkReaders projectFiles,
      r.msgs.Chain' (fun a b => a.ts ≤ b.ts) := by
    intro r hr
    simp only [mkReaders, List.mem_flatten, List.mem_map] at hr
    obtain ⟨l, ⟨p, hp, rfl⟩, hrl⟩ := hr
    obtain ⟨f, hf, rfl⟩ := List.mem_map.mp hrl
    exact rawSortedB_chain _ (hsort p hp f hf)
  exact (getMessagesBatch_sorted_aux limit _
    (initState_inv (mkReaders projectFiles)) hmem).1

theorem c1_batch_monotone_witness :
    (∀ p ∈ c1ProjectFiles, ∀ f ∈ p.2, rawSortedB f.2 = true) ∧
    (getMessagesBatch (initState (mkReaders c1ProjectFiles)) 2).Chain'
      (fun a b => a.ts ≤ b.ts) :=
  ⟨by decide, c1_batch_monotone c1ProjectFiles 2 (by decide)⟩
